import Mathlib

/-
  Verification of the CTA file-naming audit engine (src/app.py) against its
  natural-language specification.  The Python string pipeline is shallowly
  embedded over `List Char`; each regex is reimplemented as an explicit scan
  that mirrors the documented match order.  Fallible token indexing is
  threaded through `Except Unit` so that totality (absence of out-of-range
  indexing) is a provable statement rather than an artifact of the embedding.
-/

set_option maxRecDepth 8000

namespace CTA

/-! ## Character classes (ASCII, as used by the Python regexes) -/

/-- Python `\s` whitespace characters (ASCII fragment). -/
def isSpaceC (c : Char) : Bool :=
  c == ' ' || c == '\t' || c == '\n' || c == '\r' || c == '\x0b' || c == '\x0c'

def isDigitC (c : Char) : Bool := c.isDigit

def isUpperC (c : Char) : Bool := c.isUpper

def isAlphaC (c : Char) : Bool := c.isUpper || c.isLower

def isAlnumC (c : Char) : Bool := isAlphaC c || isDigitC c

/-- Characters kept by the title / free-form-ID character class `[A-Za-z0-9\-]`. -/
def isKeepC (c : Char) : Bool := isAlnumC c || c == '-'

/-! ## Python string primitives on `List Char` -/

/-- `str.strip()` (both ends, whitespace). -/
def pyStrip (l : List Char) : List Char :=
  ((l.dropWhile isSpaceC).reverse.dropWhile isSpaceC).reverse

/-- `str.rstrip()` (right end, whitespace). -/
def rstripWS (l : List Char) : List Char :=
  (l.reverse.dropWhile isSpaceC).reverse

/-- Membership of a char in the literal strip set `"_- ."`. -/
def isTrimSet (c : Char) : Bool := c == '_' || c == '-' || c == ' ' || c == '.'

/-- `str.rstrip("_- .")`. -/
def rstripTrim (l : List Char) : List Char :=
  (l.reverse.dropWhile isTrimSet).reverse

/-- `str.split(sep)` for a single separator character (keeps empty fields). -/
def splitOnChar (sep : Char) : List Char → List (List Char)
  | [] => [[]]
  | c :: rest =>
    let r := splitOnChar sep rest
    if c = sep then [] :: r
    else
      match r with
      | [] => [[c]]
      | h :: t => (c :: h) :: t

/-- `sep.join(parts)` for a single separator character. -/
def joinWith (sep : Char) : List (List Char) → List Char
  | [] => []
  | [x] => x
  | x :: y :: t => x ++ sep :: joinWith sep (y :: t)

/-- `haystack.startswith(pat)`. -/
def startsWithL : List Char → List Char → Bool
  | [], _ => true
  | _ :: _, [] => false
  | p :: ps, c :: cs => p == c && startsWithL ps cs

/-- `haystack.endswith(pat)`. -/
def endsWithL (pat l : List Char) : Bool := startsWithL pat.reverse l.reverse

/-- Substring containment (`pat in s` in Python). -/
def containsSub (pat : List Char) : List Char → Bool
  | [] => startsWithL pat []
  | c :: cs => startsWithL pat (c :: cs) || containsSub pat cs

/-- Decimal value of a digit string (`int(s)` for nonnegative digit input). -/
def toNumL (l : List Char) : Nat :=
  l.foldl (fun n c => n * 10 + (c.toNat - 48)) 0

/-- `f"{n:02d}"` for `n ≤ 99` (month/day fields are at most two digits). -/
def pad2 (n : Nat) : List Char := [Nat.digitChar (n / 10), Nat.digitChar (n % 10)]

def allDigits (l : List Char) : Bool := l.all isDigitC

/-! ## Date normalizer (`try_normalize_date`) -/

def noteDateDash : List Char := "Normalized date from YYYY-MM-DD".toList
def noteDateMDY : List Char := "Normalized date from M/D/YYYY".toList
def noteDateYMD : List Char := "Normalized date from YYYY/M/D".toList
def noteDateNine : List Char := "Normalized date from malformed token (dropped stray 0).".toList

/-- `^(\d{4})-(\d{2})-(\d{2})$`. -/
def dateYMDdash (s : List Char) : Option (List Char) :=
  match splitOnChar '-' s with
  | [y, mo, d] =>
    if y.length = 4 && mo.length = 2 && d.length = 2
        && allDigits y && allDigits mo && allDigits d then
      some (y ++ mo ++ d)
    else none
  | _ => none

/-- `^(\d{1,2})/(\d{1,2})/(\d{4})$` (no calendar validation). -/
def dateMDYslash (s : List Char) : Option (List Char) :=
  match splitOnChar '/' s with
  | [mo, d, y] =>
    if 1 ≤ mo.length && mo.length ≤ 2 && 1 ≤ d.length && d.length ≤ 2
        && y.length = 4 && allDigits mo && allDigits d && allDigits y then
      some (y ++ pad2 (toNumL mo) ++ pad2 (toNumL d))
    else none
  | _ => none

/-- `^(\d{4})/(\d{1,2})/(\d{1,2})$` (no calendar validation). -/
def dateYMDslash (s : List Char) : Option (List Char) :=
  match splitOnChar '/' s with
  | [y, mo, d] =>
    if y.length = 4 && 1 ≤ mo.length && mo.length ≤ 2 && 1 ≤ d.length && d.length ≤ 2
        && allDigits y && allDigits mo && allDigits d then
      some (y ++ pad2 (toNumL mo) ++ pad2 (toNumL d))
    else none
  | _ => none

def isLeap (y : Nat) : Bool := y % 4 == 0 && (y % 100 != 0 || y % 400 == 0)

def daysInMonth (y m : Nat) : Nat :=
  if m = 2 then (if isLeap y then 29 else 28)
  else if m = 4 ∨ m = 6 ∨ m = 9 ∨ m = 11 then 30
  else 31

/-- `datetime.date(y, m, d)` constructor validity. -/
def validDate (y m d : Nat) : Bool :=
  1 ≤ y && y ≤ 9999 && 1 ≤ m && m ≤ 12 && 1 ≤ d && d ≤ daysInMonth y m

/-- `^(\d{4})0(\d{2})(\d{2})$`, accepted only when dropping the stray `0`
    yields a calendar-valid date. -/
def dateNine (s : List Char) : Option (List Char) :=
  match s with
  | [y1, y2, y3, y4, z, m1, m2, d1, d2] =>
    if z = '0' && allDigits [y1, y2, y3, y4, m1, m2, d1, d2] then
      if validDate (toNumL [y1, y2, y3, y4]) (toNumL [m1, m2]) (toNumL [d1, d2]) then
        some [y1, y2, y3, y4, m1, m2, d1, d2]
      else none
    else none
  | _ => none

/-- `try_normalize_date`: returns (canonical 8-digit date, repair note). -/
def try_normalize_date (tok : List Char) : Option (List Char) × Option (List Char) :=
  let s := pyStrip tok
  if s = [] then (none, none)
  else if s.length = 8 && allDigits s then (some s, none)
  else
    match dateYMDdash s with
    | some d => (some d, some noteDateDash)
    | none =>
      match dateMDYslash s with
      | some d => (some d, some noteDateMDY)
      | none =>
        match dateYMDslash s with
        | some d => (some d, some noteDateYMD)
        | none =>
          match dateNine s with
          | some d => (some d, some noteDateNine)
          | none => (none, none)

/-! ## CSI normalizer (`normalize_csi`) -/

def noteCsiAuto6 : List Char := "Auto-formatted CSI from 6 digits".toList
def noteCsiAuto8 : List Char := "Auto-formatted CSI from 8 digits".toList
def noteCsiHyphen : List Char := "Corrected malformed CSI hyphenation".toList

/-- `^\d{2}-\d{2}-\d{2}$`. -/
def canonCsi3 (t : List Char) : Bool :=
  match t with
  | [a, b, h1, c, d, h2, e, f] =>
    isDigitC a && isDigitC b && h1 == '-' && isDigitC c && isDigitC d
      && h2 == '-' && isDigitC e && isDigitC f
  | _ => false

/-- `^\d{2}-\d{2}-\d{2}-\d{2}$`. -/
def canonCsi4 (t : List Char) : Bool :=
  match t with
  | [a, b, h1, c, d, h2, e, f, h3, g, k] =>
    isDigitC a && isDigitC b && h1 == '-' && isDigitC c && isDigitC d
      && h2 == '-' && isDigitC e && isDigitC f && h3 == '-' && isDigitC g && isDigitC k
  | _ => false

/-- `f"{d[0:2]}-{d[2:4]}-{d[4:6]}"`. -/
def fmtCsi3 (ds : List Char) : List Char :=
  ds.take 2 ++ '-' :: ((ds.drop 2).take 2 ++ '-' :: (ds.drop 4).take 2)

/-- `f"{d[0:2]}-{d[2:4]}-{d[4:6]}-{d[6:8]}"`. -/
def fmtCsi4 (ds : List Char) : List Char :=
  ds.take 2 ++ '-' :: ((ds.drop 2).take 2 ++ '-' :: ((ds.drop 4).take 2 ++ '-' :: (ds.drop 6).take 2))

/-- `normalize_csi`: returns (canonical hyphenated code, repair note). -/
def normalize_csi (token : List Char) : Option (List Char) × Option (List Char) :=
  let t := pyStrip token
  if t = [] then (none, none)
  else if canonCsi3 t || canonCsi4 t then (some t, none)
  else
    let ds := t.filter isDigitC
    if ds.length = 6 then (some (fmtCsi3 ds), some noteCsiAuto6)
    else if ds.length = 8 then (some (fmtCsi4 ds), some noteCsiAuto8)
    else if t.contains '-' && (ds.length = 6 || ds.length = 8) then
      (if ds.length = 6 then (some (fmtCsi3 ds), some noteCsiHyphen)
       else (some (fmtCsi4 ds), some noteCsiHyphen))
    else (none, none)

/-! ## Extension-token stripping (`strip_spurious_extensions`) -/

/-- The regex alternation `pdf|docx?|xlsx?|pptx?|jpe?g|png|tiff?|tif|...` with
    greedy optionals expanded in backtracking order. -/
def extAlts : List (List Char) :=
  ["pdf".toList, "docx".toList, "doc".toList, "xlsx".toList, "xls".toList,
   "pptx".toList, "ppt".toList, "jpeg".toList, "jpg".toList, "png".toList,
   "tiff".toList, "tif".toList, "gif".toList, "bmp".toList, "heic".toList,
   "dwg".toList, "rvt".toList, "csv".toList, "txt".toList, "rtf".toList,
   "zip".toList, "msg".toList, "eml".toList]

/-- Delimiter class `[._-]` of the extension-token regex. -/
def isDelimE (c : Char) : Bool := c == '.' || c == '_' || c == '-'

/-- Case-insensitive prefix test (pattern is lowercase). -/
def ciStartsWith : List Char → List Char → Bool
  | [], _ => true
  | _ :: _, [] => false
  | p :: ps, c :: cs => p == Char.toLower c && ciStartsWith ps cs

/-- Lookahead `(?=$|[._-])`. -/
def extLook : List Char → Bool
  | [] => true
  | c :: _ => isDelimE c

/-- Try each alternative in order at the current position; on success return
    the remainder after the consumed token. -/
def tryExtList : List (List Char) → List Char → Option (List Char)
  | [], _ => none
  | tok :: toks, l =>
    if ciStartsWith tok l && extLook (l.drop tok.length) then some (l.drop tok.length)
    else tryExtList toks l

def tryExtTok (l : List Char) : Option (List Char) := tryExtList extAlts l

/-- Interior scan of the global substitution: a match consumes the leading
    delimiter plus the token (lookahead not consumed).  Fuel bounds the
    recursion; `length + 1` fuel is always sufficient. -/
def extSubGo : Nat → List Char → List Char
  | 0, l => l
  | _ + 1, [] => []
  | fuel + 1, c :: rest =>
    if isDelimE c then
      match tryExtTok rest with
      | some r => extSubGo fuel r
      | none => c :: extSubGo fuel rest
    else c :: extSubGo fuel rest

/-- `re.sub` of the extension-token regex (the `^` alternative applies only at
    position 0). -/
def extSub (s : List Char) : List Char :=
  match tryExtTok s with
  | some r => extSubGo (s.length + 1) r
  | none => extSubGo (s.length + 1) s

/-- The `for ext in EXT_TOKENS: if lowered.endswith(ext)` loop (at most one
    token of the set can be a suffix, so the set's iteration order is
    immaterial). -/
def extSuffixCut (s : List Char) : List Char :=
  match extAlts.find? (fun tok => endsWithL tok (s.map Char.toLower)) with
  | some tok => s.take (s.length - tok.length)
  | none => s

/- `re.sub(r'[._-]{2,}', '-', s)`: runs of two or more delimiters collapse to
   a single dash; single delimiters are kept. -/
mutual
def cdSkip : List Char → List Char
  | [] => []
  | c :: rest => if isDelimE c then cdSkip rest else c :: cdMain rest
def cdMain : List Char → List Char
  | [] => []
  | c :: rest =>
    if isDelimE c then
      match rest with
      | [] => [c]
      | d :: _ => if isDelimE d then '-' :: cdSkip rest else c :: cdMain rest
    else c :: cdMain rest
end

/-- `re.sub(r'^[._-]+|[._-]+$', '', s)`. -/
def trimDelims (l : List Char) : List Char :=
  ((l.dropWhile isDelimE).reverse.dropWhile isDelimE).reverse

def noteExtTok : List Char := "Removed extra extension token from title.".toList

/-- Note-list membership (`x in notes`). -/
def memNote (x : List Char) : List (List Char) → Bool
  | [] => false
  | y :: t => if y = x then true else memNote x t

def strip_spurious_extensions (text : List Char) (notes : List (List Char)) :
    List Char × List (List Char) :=
  let s1 := extSub text
  let s2 := extSuffixCut s1
  let notes2 := if s2 ≠ text then notes ++ [noteExtTok] else notes
  (trimDelims (cdMain s2), notes2)

/-! ## Title and identifier sanitizers -/

def noteAmp : List Char := "Replaced '&' with 'and' in title.".toList
def noteSpacesT : List Char := "Removed spaces from title.".toList
def noteUndersT : List Char := "Removed internal underscores from title.".toList
def noteSpecialT : List Char := "Removed special characters from title.".toList
def noteNormTitle : List Char := "Normalized title.".toList

def replaceAmp : List Char → List Char
  | [] => []
  | c :: rest => (if c = '&' then ['a', 'n', 'd'] else [c]) ++ replaceAmp rest

def sanitize_title (raw : List Char) (notes : List (List Char)) :
    List Char × List (List Char) :=
  let p0 := strip_spurious_extensions raw notes
  let s0 := p0.1
  let sa := if s0.contains '&' then replaceAmp s0 else s0
  let na := if s0.contains '&' then p0.2 ++ [noteAmp] else p0.2
  let sb := if sa.contains ' ' then sa.filter (fun c => !isSpaceC c) else sa
  let nb := if sa.contains ' ' then na ++ [noteSpacesT] else na
  let sc := if sb.contains '_' then sb.filter (fun c => c != '_') else sb
  let nc := if sb.contains '_' then nb ++ [noteUndersT] else nb
  let sd := sc.filter isKeepC
  let nd := if sd ≠ sc then nc ++ [noteSpecialT] else nc
  let pe := strip_spurious_extensions sd nd
  (pe.1, if pe.1 ≠ raw && !(memNote noteNormTitle pe.2) then pe.2 ++ [noteNormTitle] else pe.2)

def idNoteSpaces (label : List Char) : List Char :=
  "Removed spaces from ".toList ++ label ++ ".".toList
def idNoteUnders (label : List Char) : List Char :=
  "Removed underscores from ".toList ++ label ++ ".".toList
def idNoteSpecial (label : List Char) : List Char :=
  "Removed special characters from ".toList ++ label ++ ".".toList

def sanitize_id_any (raw : List Char) (notes : List (List Char)) (label : List Char) :
    List Char × List (List Char) :=
  let s1 := if raw.contains ' ' then raw.filter (fun c => !isSpaceC c) else raw
  let n1 := if raw.contains ' ' then notes ++ [idNoteSpaces label] else notes
  let s2 := if s1.contains '_' then s1.filter (fun c => c != '_') else s1
  let n2 := if s1.contains '_' then n1 ++ [idNoteUnders label] else n1
  let s3 := s2.filter isKeepC
  (s3, if s3 ≠ s2 then n2 ++ [idNoteSpecial label] else n2)

/-! ## Revision extractor (`extract_rev`) -/

/-- Separator class `[_\-\.\s]` of the revision regexes. -/
def isRevSep (c : Char) : Bool := c == '_' || c == '-' || c == '.' || isSpaceC c

/-- The class `[0-9Oo]`. -/
def isRevDig (c : Char) : Bool := isDigitC c || c == 'O' || c == 'o'

/-- `raw.upper().replace('O', '0')` on the captured class `[0-9Oo]` (digits
    are unchanged by `upper`, `o` upcases to `O`, which then becomes `0`). -/
def fixO (c : Char) : Char := if c = 'o' ∨ c = 'O' then '0' else c

/-- `CANON_REV_SUFFIX = _Rev(\d{1,2})$` (case-sensitive), searched: returns
    (text before the match, digits). -/
def canonRevSplit (s : List Char) : Option (List Char × List Char) :=
  let r := s.reverse
  let ds := r.takeWhile isDigitC
  if ds.length = 1 || ds.length = 2 then
    match r.drop ds.length with
    | 'v' :: 'e' :: 'R' :: '_' :: rest => some (rest.reverse, ds.reverse)
    | _ => none
  else none

/-- `REV_ANY_INFIX = [_\-\.\s]*Rev[_\-\.\s]*([0-9Oo]{1,2})$` (ignore case),
    searched: returns (text before the leftmost match, raw digits). -/
def revAnySplit (s : List Char) : Option (List Char × List Char) :=
  let r := s.reverse
  let ds := r.takeWhile isRevDig
  if ds.length = 1 || ds.length = 2 then
    match (r.drop ds.length).dropWhile isRevSep with
    | v :: e :: rr :: rest =>
      if Char.toLower v == 'v' && Char.toLower e == 'e' && Char.toLower rr == 'r' then
        some ((rest.dropWhile isRevSep).reverse, ds.reverse)
      else none
    | _ => none
  else none

/-- `(?i)Rev[._\-\s]*[0-9Oo]{1,2}\.$` searched. -/
def hadDotAfterRev (s : List Char) : Bool :=
  match s.reverse with
  | '.' :: r2 =>
    let ds := r2.takeWhile isRevDig
    if ds.length = 1 || ds.length = 2 then
      match (r2.drop ds.length).dropWhile isRevSep with
      | v :: e :: rr :: _ =>
        Char.toLower v == 'v' && Char.toLower e == 'e' && Char.toLower rr == 'r'
      | _ => false
    else false
  | _ => false

/-- Lookahead `(?=$|[._\-\s])`. -/
def embLook : List Char → Bool
  | [] => true
  | c :: _ => isRevSep c

/-- Try to match `Rev[._\-\s]*([0-9Oo]{1,2})(?=$|[._\-\s])` at the current
    position (the preceding `^`/delimiter is handled by the caller); returns
    (raw captured digits, remainder at the lookahead position). -/
def tryEmbRev (l : List Char) : Option (List Char × List Char) :=
  match l with
  | r :: e :: v :: rest =>
    if Char.toLower r == 'r' && Char.toLower e == 'e' && Char.toLower v == 'v' then
      match rest.dropWhile isRevSep with
      | d1 :: tail1 =>
        if isRevDig d1 then
          match tail1 with
          | d2 :: tail2 =>
            if isRevDig d2 then
              if embLook tail2 then some ([d1, d2], tail2) else none
            else if embLook tail1 then some ([d1], tail1) else none
          | [] => some ([d1], [])
        else none
      | [] => none
    else none
  | _ => none

/-- Global `EMBEDDED_REV.sub` scan (a match consumes the delimiter and the
    `Rev` token with its digits); the accumulator keeps the digits of the
    last match, mirroring the Python callback. -/
def embSubGo : Nat → List Char → Option (List Char) → List Char × Option (List Char)
  | 0, l, acc => (l, acc)
  | _ + 1, [], acc => ([], acc)
  | fuel + 1, c :: rest, acc =>
    if isRevSep c then
      match tryEmbRev rest with
      | some (ds, rem) => embSubGo fuel rem (some ds)
      | none =>
        let p := embSubGo fuel rest acc
        (c :: p.1, p.2)
    else
      let p := embSubGo fuel rest acc
      (c :: p.1, p.2)

def embSub (s : List Char) : List Char × Option (List Char) :=
  match tryEmbRev s with
  | some (ds, rem) => embSubGo (s.length + 1) rem (some ds)
  | none => embSubGo (s.length + 1) s none

/-- `EMBEDDED_REV.search`: digits of the first match, if any. -/
def embFirstGo : Nat → List Char → Option (List Char)
  | 0, _ => none
  | _ + 1, [] => none
  | fuel + 1, c :: rest =>
    if isRevSep c then
      match tryEmbRev rest with
      | some (ds, _) => some ds
      | none => embFirstGo fuel rest
    else embFirstGo fuel rest

def embRevFirst (s : List Char) : Option (List Char) :=
  match tryEmbRev s with
  | some (ds, _) => some ds
  | none => embFirstGo (s.length + 1) s

/-- Try to match orphan `Rev(?=$|[._\-\s])` at the current position. -/
def tryOrphRev (l : List Char) : Option (List Char) :=
  match l with
  | r :: e :: v :: rest =>
    if Char.toLower r == 'r' && Char.toLower e == 'e' && Char.toLower v == 'v'
        && embLook rest then some rest
    else none
  | _ => none

def orphSubGo : Nat → List Char → List Char
  | 0, l => l
  | _ + 1, [] => []
  | fuel + 1, c :: rest =>
    if isRevSep c then
      match tryOrphRev rest with
      | some rem => orphSubGo fuel rem
      | none => c :: orphSubGo fuel rest
    else c :: orphSubGo fuel rest

def orphSub (s : List Char) : List Char :=
  match tryOrphRev s with
  | some rem => orphSubGo (s.length + 1) rem
  | none => orphSubGo (s.length + 1) s

def noteRevO : List Char := "Corrected letter 'O' to digit '0' in revision.".toList
def noteRevNorm : List Char := "Normalized revision element.".toList
def noteRevEmb : List Char := "Removed embedded revision token from title.".toList
def noteRev0 : List Char := "Added Rev0 (missing revision element).".toList
def noteRevDot : List Char := "Removed extra period after revision element.".toList

/-- `extract_rev`: returns (title remainder, `Rev##` string, notes). -/
def extract_rev (trailing : List Char) (notes : List (List Char)) :
    List Char × List Char × List (List Char) :=
  let s := rstripWS trailing
  let hadDot := hadDotAfterRev s
  match canonRevSplit s with
  | some (base, digs) => (rstripTrim base, 'R' :: 'e' :: 'v' :: digs, notes)
  | none =>
    match revAnySplit s with
    | some (pre, raw) =>
      let digs := raw.map fixO
      let n1 := if digs ≠ raw then notes ++ [noteRevO] else notes
      let n2 := n1 ++ [noteRevNorm]
      let n3 := if hadDot && !(memNote noteRevDot n2) then n2 ++ [noteRevDot] else n2
      (pre, 'R' :: 'e' :: 'v' :: digs, n3)
    | none =>
      match embSub s with
      | (s2, some rawDs) =>
        let digs := rawDs.map fixO
        let n1 := notes ++ [noteRevEmb, noteRevNorm]
        let n2 := if hadDot && !(memNote noteRevDot n1) then n1 ++ [noteRevDot] else n1
        (rstripTrim s2, 'R' :: 'e' :: 'v' :: digs, n2)
      | (_, none) =>
        let s2b := orphSub s
        let sawOrph := s2b ≠ s
        let n1 := if sawOrph then notes ++ [noteRevEmb, noteRevNorm] else notes
        let n2 := n1 ++ [noteRev0]
        let n3 := if hadDot && !(memNote noteRevDot n2) then n2 ++ [noteRevDot] else n2
        (rstripTrim s2b, ['R', 'e', 'v', '0'], n3)

/-! ## Length budget, assembler, decision -/

def MAX_CHARS_TOTAL : Nat := 64

def noteTrunc : List Char := "File name exceeds 64-character limit (title truncated).".toList

/-- Python truthiness of `Optional[str]` (`None` and `""` are falsy). -/
def optTruthy : Option (List Char) → Option (List Char)
  | some l => if l = [] then none else some l
  | none => none

def enforce_stem_limit (pfx : List Char) (idp : Option (List Char))
    (date title rev : List Char) (notes : List (List Char)) :
    List Char × List (List Char) :=
  let base := pfx ++ '_' ::
    ((match optTruthy idp with | some i => i ++ ['_'] | none => []) ++ date ++ ['_'])
  let stemLen := base.length + title.length + 1 + rev.length
  if stemLen > MAX_CHARS_TOTAL then
    (title.take (title.length - (stemLen - MAX_CHARS_TOTAL)), notes ++ [noteTrunc])
  else (title, notes)

/- `MULTI_UNDERS.sub` (runs of two or more underscores collapse to one). -/
mutual
def cuSkip : List Char → List Char
  | [] => []
  | c :: rest => if c = '_' then cuSkip rest else c :: cuMain rest
def cuMain : List Char → List Char
  | [] => []
  | c :: rest =>
    if c = '_' then
      match rest with
      | [] => [c]
      | d :: _ => if d = '_' then '_' :: cuSkip rest else c :: cuMain rest
    else c :: cuMain rest
end

def join_tokens (pfx : List Char) (idp : Option (List Char))
    (date title rev : List Char) : List Char :=
  let parts := [pfx] ++ (match optTruthy idp with | some i => [i] | none => [])
    ++ [date, title, rev]
  let s := cuMain (joinWith '_' parts)
  (s.reverse.dropWhile (fun c => c == '_')).reverse

def countU (l : List Char) : Nat := (l.filter (fun c => c == '_')).length

def underscores_ok (stem : List Char) (hasId : Bool) : Bool :=
  countU stem == (if hasId then 4 else 3)

def noteTrailU : List Char := "Removed trailing underscore before extension.".toList

def postprocess_before_ext (stem : List Char) (notes : List (List Char)) :
    List Char × List (List Char) :=
  let p1 := if endsWithL ['_'] stem then
      ((stem.reverse.dropWhile (fun c => c == '_')).reverse,
       if memNote noteTrailU notes then notes else notes ++ [noteTrailU])
    else (stem, notes)
  if endsWithL ['.'] p1.1 then
    ((p1.1.reverse.dropWhile (fun c => c == '.')).reverse,
     if memNote noteRevDot p1.2 then p1.2 else p1.2 ++ [noteRevDot])
  else p1

def termKey : List Char := "Does not follow CTA".toList
def noteTerm : List Char := "Does not follow CTA file naming convention.".toList

def assemble_decision (sugg : Option (List Char)) (issues : List (List Char)) :
    Option (List Char) × List (List Char) × Bool :=
  if issues.any (fun s => containsSub termKey s) then (some [], issues, true)
  else
    match sugg with
    | none => (some [], issues, true)
    | some s => (some s, issues, true)

def noteUCount : List Char :=
  "Unexpected underscore count after normalization (check for missing title or extra separators).".toList

/-- The nested `finalize` closure of `audit_filename`. -/
def finalizeF (pfx : List Char) (idp : Option (List Char)) (dateTok : List Char)
    (titleRaw : List Char) (hardRev : Option (List Char)) (issues : List (List Char))
    (ext orig : List Char) : Option (List Char) × List (List Char) × Bool :=
  let r := extract_rev titleRaw issues
  let rev := match hardRev with | some hr => hr | none => r.2.1
  let idClean := match idp with
    | some l => if l = [] then none else some (l.filter (fun c => c != '_'))
    | none => none
  let t1 := sanitize_title r.1 r.2.2
  let t2 := enforce_stem_limit pfx idClean dateTok t1.1 rev t1.2
  let stem1 := join_tokens pfx idClean dateTok t2.1 rev
  let is4 := if underscores_ok stem1 (optTruthy idClean).isSome then t2.2
             else t2.2 ++ [noteUCount]
  let p := postprocess_before_ext stem1 is4
  (some (p.1 ++ ext), p.2, decide (p.1 ++ ext ≠ orig))

/-! ## Rule tables -/

def IGNORE_PREFIXES : List (List Char) :=
  ["I-PAY".toList, "PCO".toList, "IDR".toList, "NCR".toList, "RFI".toList,
   "SMTL".toList, "UOR".toList]

def STANDARD_PREFIXES : List (List Char) :=
  ["COR".toList, "LG".toList, "MA".toList, "MM".toList, "PN".toList, "PR".toList,
   "REF".toList, "RP".toList, "SCH".toList, "GA".toList, "DA".toList, "DES".toList,
   "DV".toList, "DW".toList, "GIS".toList, "IDR".toList, "PH".toList, "SOV".toList,
   "BL".toList, "SV".toList, "TR".toList, "VD".toList, "IGA".toList, "ORD".toList,
   "OC".toList, "RE".toList, "ROW".toList, "SSC".toList, "SAF".toList, "NCR".toList,
   "TX".toList, "UM".toList, "FA".toList, "FC".toList, "SC".toList, "CL".toList,
   "PL".toList, "SP".toList, "SF".toList, "WR".toList]

def REQUIRES_CSI : List (List Char) :=
  ["CA".toList, "CT".toList, "EN".toList, "IR".toList, "IC".toList, "MD".toList,
   "MT".toList, "OM".toList, "PD".toList, "SM".toList, "SD".toList]

def REQUIRES_ID_ANY : List (List Char) :=
  ["SOP".toList, "TF".toList, "ATP".toList, "BR".toList, "CF".toList, "CS".toList,
   "COST".toList, "ES".toList, "LOE".toList, "FVO".toList, "PIF".toList, "PMP".toList,
   "PPS".toList, "PRO".toList, "LIQ".toList, "RFP".toList, "CN".toList, "NTP".toList,
   "SOW".toList, "PT".toList, "AU".toList]

/-- `ID_LABEL.get(prefix, "ID")`. -/
def ID_LABEL (p : List Char) : List Char :=
  if p = "CN".toList ∨ p = "NTP".toList ∨ p = "SOW".toList then "ContractNumber".toList
  else if p = "PT".toList then "Permit-ID".toList
  else if p = "SOP".toList then "SOP-ID".toList
  else if p = "TF".toList then "FormID".toList
  else if p = "ATP".toList ∨ p = "BR".toList ∨ p = "CF".toList ∨ p = "CS".toList
      ∨ p = "COST".toList ∨ p = "ES".toList ∨ p = "LOE".toList ∨ p = "FVO".toList
      ∨ p = "PIF".toList ∨ p = "PMP".toList ∨ p = "PPS".toList ∨ p = "PRO".toList
      ∨ p = "LIQ".toList ∨ p = "RFP".toList then "ProjectID".toList
  else if p = "PE".toList then "EvaluationNumber".toList
  else if p = "AEA".toList then "AllowanceNumber".toList
  else if p = "CO".toList then "ChangeOrder-Number".toList
  else if p = "NOC".toList then "ClaimNumber".toList
  else if p = "CBL".toList ∨ p = "DL".toList then "BulletinNumber".toList
  else if p = "FM".toList then "FieldMemo-ID".toList
  else if p = "PO".toList then "ProceedOrder-Number".toList
  else if p = "LNTP".toList then "OrderNumber".toList
  else if p = "CI".toList ∨ p = "PA".toList then "InvoiceNumber".toList
  else if p = "AU".toList then "Audit-ID".toList
  else if p = "QA".toList then "QMS-ID".toList
  else "ID".toList

def memS (x : List Char) : List (List Char) → Bool
  | [] => false
  | y :: t => if y = x then true else memS x t

/-! ## Dispatcher (`audit_filename` family branches) -/

def noteInvDate : List Char := "Invalid or missing date.".toList
def noteRemNonDate : List Char := "Removed non-date token(s) before date.".toList
def noteMissAudit : List Char := "Missing Audit-ID.".toList
def noteMissAuditBefore : List Char :=
  "Missing Audit-ID before date. Expected AU_[Audit-ID]_[Date]_[Title]_Rev##.".toList
def noteMissTask : List Char := "Missing TaskID/ContractID and/or date.".toList
def noteMissTask2 : List Char := "Missing TaskID/ContractID.".toList
def noteTFNoForm : List Char := "No FormID provided — allowed for TF.".toList
def noteTFReint : List Char :=
  "Reinterpreted first token as Title — missing FormID allowed for TF.".toList
def noteMissCSI : List Char := "Missing CSI section.".toList
def noteInvCSI : List Char := "Invalid CSI-Section (require NN-NN-NN or NN-NN-NN-NN).".toList
def noteWR : List Char := "No CSI provided — allowed for overall warranty.".toList

def noteMissIdDate (lbl : List Char) : List Char :=
  "Missing ".toList ++ lbl ++ " and/or date.".toList
def noteMissIdBefore (pfx lbl : List Char) : List Char :=
  "Missing ".toList ++ lbl ++ " before date. Expected ".toList ++ pfx
    ++ "_[".toList ++ lbl ++ "]_[Date]_[Title]_Rev##.".toList

/-- `need_date` (note is appended only on successful normalization). -/
def needDate (tok : List Char) (issues : List (List Char)) :
    Option (List Char) × List (List Char) :=
  if tok = [] then (none, issues)
  else
    match try_normalize_date tok with
    | (some dd, some nn) => (some dd, issues ++ [nn])
    | (some dd, none) => (some dd, issues)
    | (none, _) => (none, issues)

def needDateOpt (tok : Option (List Char)) (issues : List (List Char)) :
    Option (List Char) × List (List Char) :=
  match tok with
  | none => (none, issues)
  | some t => needDate t issues

/-- The `for i, tok in enumerate(rest)` date scans of the COR and FDM
    branches: first token that normalizes as a date (its repair note, if any,
    is appended). -/
def findDate (toks : List (List Char)) (issues : List (List Char)) :
    Option (Nat × List Char) × List (List Char) :=
  match toks with
  | [] => (none, issues)
  | t :: ts =>
    match needDate t issues with
    | (some dd, is2) => (some (0, dd), is2)
    | (none, is2) =>
      match findDate ts is2 with
      | (some (i, dd), isr) => (some (i + 1, dd), isr)
      | (none, isr) => (none, isr)

def joinU (parts : List (List Char)) : List Char := joinWith '_' parts

/-- Guarded token indexing: the only operation of the audit that could fault
    in Python (`rest[i]`), threaded through `Except`. -/
def idx (l : List (List Char)) (i : Nat) : Except Unit (List Char) :=
  match l.get? i with
  | some v => Except.ok v
  | none => Except.error ()

/-- Dispatcher result: either a non-compliant failure with its notes, or the
    arguments of the `finalize` call. -/
inductive Outcome2 where
  | fail (ns : List (List Char))
  | fin (pfx : List Char) (idp : Option (List Char)) (dateTok : List Char)
        (titleRaw : List Char) (hardRev : Option (List Char)) (ns : List (List Char))

def corBranch (rest : List (List Char)) (is0 : List (List Char)) :
    Except Unit Outcome2 :=
  match findDate rest is0 with
  | (none, is1) => Except.ok (Outcome2.fail (is1 ++ [noteInvDate, noteTerm]))
  | (some (i, d), is1) =>
    let is2 := if i ≠ 0 then is1 ++ [noteRemNonDate] else is1
    Except.ok (Outcome2.fin "COR".toList none d (joinU (rest.drop (i + 1))) none is2)

def qaBranch (rest : List (List Char)) (is0 : List (List Char)) :
    Except Unit Outcome2 :=
  if rest = [] then Except.ok (Outcome2.fail (is0 ++ [noteTerm]))
  else do
    let t0 ← idx rest 0
    match needDate t0 is0 with
    | (some dd, is1) => pure (Outcome2.fin "QA".toList none dd (joinU (rest.drop 1)) none is1)
    | (none, is1) =>
      let s := sanitize_id_any t0 is1 "QMS-ID".toList
      if rest.length < 2 then pure (Outcome2.fail (s.2 ++ [noteTerm]))
      else do
        let t1 ← idx rest 1
        match needDate t1 s.2 with
        | (some dd, is3) =>
          pure (Outcome2.fin "QA".toList (some s.1) dd (joinU (rest.drop 2)) none is3)
        | (none, is3) => pure (Outcome2.fail (is3 ++ [noteInvDate, noteTerm]))

def auBranch (rest : List (List Char)) (is0 : List (List Char)) :
    Except Unit Outcome2 :=
  if rest.length < 2 then Except.ok (Outcome2.fail (is0 ++ [noteMissAudit, noteTerm]))
  else do
    let t0 ← idx rest 0
    match needDate t0 is0 with
    | (some _, is1) => pure (Outcome2.fail (is1 ++ [noteMissAuditBefore, noteTerm]))
    | (none, is1) =>
      let s := sanitize_id_any t0 is1 "Audit-ID".toList
      let t1 ← idx rest 1
      match needDate t1 s.2 with
      | (some dd, is3) =>
        pure (Outcome2.fin "AU".toList (some s.1) dd (joinU (rest.drop 2)) none is3)
      | (none, is3) => pure (Outcome2.fail (is3 ++ [noteInvDate, noteTerm]))

/-- Sequential sanitization of the FDM identifier tokens. -/
def sanitizeIdList (toks : List (List Char)) (issues : List (List Char)) :
    List (List Char) × List (List Char) :=
  match toks with
  | [] => ([], issues)
  | t :: ts =>
    let s1 := sanitize_id_any t issues "ID".toList
    let r := sanitizeIdList ts s1.2
    (s1.1 :: r.1, r.2)

def fdmBranch (rest : List (List Char)) (is0 : List (List Char)) :
    Except Unit Outcome2 :=
  match findDate rest is0 with
  | (none, is1) => Except.ok (Outcome2.fail (is1 ++ [noteMissTask, noteTerm]))
  | (some (i, d), is1) =>
    if i = 0 then Except.ok (Outcome2.fail (is1 ++ [noteMissTask, noteTerm]))
    else
      let idToks := (rest.take i).take 2
      if idToks = [] then Except.ok (Outcome2.fail (is1 ++ [noteMissTask2, noteTerm]))
      else
        let s := sanitizeIdList idToks is1
        let idPart := joinWith '-' (s.1.filter (fun t => !t.isEmpty))
        Except.ok (Outcome2.fin "FDM".toList (some idPart) d (joinU (rest.drop (i + 1))) none s.2)

def idAnyBranch (pfx : List Char) (rest : List (List Char)) (is0 : List (List Char)) :
    Except Unit Outcome2 :=
  if rest.length < 2 then
    Except.ok (Outcome2.fail (is0 ++ [noteMissIdDate (ID_LABEL pfx), noteTerm]))
  else do
    let t0 ← idx rest 0
    match needDate t0 is0 with
    | (some _, is1) =>
      pure (Outcome2.fail (is1 ++ [noteMissIdBefore pfx (ID_LABEL pfx), noteTerm]))
    | (none, is1) =>
      let s := sanitize_id_any t0 is1 (ID_LABEL pfx)
      let t1 ← idx rest 1
      match needDate t1 s.2 with
      | (some dd, is3) =>
        pure (Outcome2.fin pfx (some s.1) dd (joinU (rest.drop 2)) none is3)
      | (none, is3) => pure (Outcome2.fail (is3 ++ [noteInvDate, noteTerm]))

def tfBranch (rest : List (List Char)) (is0 : List (List Char)) :
    Except Unit Outcome2 :=
  if rest = [] then Except.ok (Outcome2.fail (is0 ++ [noteTerm]))
  else do
    let t0 ← idx rest 0
    match needDate t0 is0 with
    | (some dd, is1) =>
      pure (Outcome2.fin "TF".toList none dd (joinU (rest.drop 1)) none (is1 ++ [noteTFNoForm]))
    | (none, is1) =>
      match needDateOpt (rest.get? 1) is1 with
      | (some dd, is2) =>
        let trailing := if rest.length > 2 then joinU (rest.drop 2) else []
        let digsRaw := match revAnySplit trailing with
          | some (_, raw) => raw
          | none =>
            match embRevFirst trailing with
            | some raw => raw
            | none => ['0']
        let is3 := is2 ++ [noteTFReint, noteRevNorm]
        pure (Outcome2.fin "TF".toList none dd t0 (some ('R' :: 'e' :: 'v' :: digsRaw.map fixO)) is3)
      | (none, is2) => idAnyBranch "TF".toList rest is2

def csiBranch (pfx : List Char) (rest : List (List Char)) (is0 : List (List Char)) :
    Except Unit Outcome2 :=
  if rest.length < 2 then Except.ok (Outcome2.fail (is0 ++ [noteMissCSI]))
  else do
    let t0 ← idx rest 0
    match needDate t0 is0 with
    | (some _, is1) => pure (Outcome2.fail (is1 ++ [noteMissCSI]))
    | (none, is1) =>
      match normalize_csi t0 with
      | (none, _) => pure (Outcome2.fail (is1 ++ [noteInvCSI]))
      | (some csi, cnote) =>
        let is2 := match cnote with | some n => is1 ++ [n] | none => is1
        let t1 ← idx rest 1
        match needDate t1 is2 with
        | (some dd, is3) =>
          pure (Outcome2.fin pfx (some csi) dd (joinU (rest.drop 2)) none is3)
        | (none, is3) => pure (Outcome2.fail (is3 ++ [noteInvDate]))

def pnspBranch (pfx : List Char) (rest : List (List Char)) (is0 : List (List Char)) :
    Except Unit Outcome2 :=
  if rest = [] then Except.ok (Outcome2.fail (is0 ++ [noteTerm]))
  else do
    let t0 ← idx rest 0
    match needDate t0 is0 with
    | (some dd, is1) => pure (Outcome2.fin pfx none dd (joinU (rest.drop 1)) none is1)
    | (none, is1) =>
      match normalize_csi t0 with
      | (some csi, cnote) =>
        match needDateOpt (rest.get? 1) is1 with
        | (some dd, is2) =>
          let is3 := match cnote with | some n => is2 ++ [n] | none => is2
          pure (Outcome2.fin pfx (some csi) dd (joinU (rest.drop 2)) none is3)
        | (none, is2) => pure (Outcome2.fail (is2 ++ [noteInvDate, noteTerm]))
      | (none, _) => pure (Outcome2.fail (is1 ++ [noteTerm]))

def wrBranch (rest : List (List Char)) (is0 : List (List Char)) :
    Except Unit Outcome2 :=
  if rest = [] then Except.ok (Outcome2.fail (is0 ++ [noteTerm]))
  else do
    let t0 ← idx rest 0
    match needDate t0 is0 with
    | (some dd, is1) =>
      pure (Outcome2.fin "WR".toList none dd (joinU (rest.drop 1)) none (is1 ++ [noteWR]))
    | (none, is1) =>
      match normalize_csi t0 with
      | (some csi, cnote) =>
        match needDateOpt (rest.get? 1) is1 with
        | (some dd, is2) =>
          let is3 := match cnote with | some n => is2 ++ [n] | none => is2
          pure (Outcome2.fin "WR".toList (some csi) dd (joinU (rest.drop 2)) none is3)
        | (none, is2) => pure (Outcome2.fail (is2 ++ [noteInvDate, noteTerm]))
      | (none, _) => pure (Outcome2.fail (is1 ++ [noteTerm]))

def reBranch (rest : List (List Char)) (is0 : List (List Char)) :
    Except Unit Outcome2 :=
  if rest = [] then Except.ok (Outcome2.fail (is0 ++ [noteTerm]))
  else do
    let t0 ← idx rest 0
    match needDate t0 is0 with
    | (some dd, is1) => pure (Outcome2.fin "RE".toList none dd (joinU (rest.drop 1)) none is1)
    | (none, is1) => pure (Outcome2.fail (is1 ++ [noteInvDate, noteTerm]))

def stdBranch (pfx : List Char) (rest : List (List Char)) (is0 : List (List Char)) :
    Except Unit Outcome2 :=
  match needDateOpt (rest.get? 0) is0 with
  | (some dd, is1) => Except.ok (Outcome2.fin pfx none dd (joinU (rest.drop 1)) none is1)
  | (none, is1) => Except.ok (Outcome2.fail (is1 ++ [noteInvDate, noteTerm]))

def dispatch (pfx : List Char) (rest : List (List Char)) (is0 : List (List Char)) :
    Except Unit Outcome2 :=
  if pfx = "COR".toList then corBranch rest is0
  else if pfx = "QA".toList then qaBranch rest is0
  else if pfx = "AU".toList then auBranch rest is0
  else if pfx = "FDM".toList then fdmBranch rest is0
  else if pfx = "TF".toList then tfBranch rest is0
  else if memS pfx REQUIRES_ID_ANY then idAnyBranch pfx rest is0
  else if memS pfx REQUIRES_CSI then csiBranch pfx rest is0
  else if pfx = "PN".toList then pnspBranch "PN".toList rest is0
  else if pfx = "SP".toList then pnspBranch "SP".toList rest is0
  else if pfx = "WR".toList then wrBranch rest is0
  else if pfx = "RE".toList then reBranch rest is0
  else if memS pfx STANDARD_PREFIXES then stdBranch pfx rest is0
  else Except.ok (Outcome2.fail (is0 ++ [noteTerm]))

/-! ## Top-level audit -/

def strEmptyVal : List Char := "Empty value".toList
def noteSpaceExt : List Char := "Removed space before file extension.".toList
def noteDblU : List Char := "Removed double underscore.".toList

/-- `SPACE_BEFORE_EXT = \s+\.[A-Za-z0-9]+$` searched on the raw input. -/
def spaceBeforeExt (l : List Char) : Bool :=
  let r := l.reverse
  let a := r.takeWhile isAlnumC
  if a = [] then false
  else
    match r.drop a.length with
    | '.' :: r2 => !(r2.takeWhile isSpaceC).isEmpty
    | _ => false

/-- Split into stem and extension at the last dot (extension keeps the dot). -/
def splitStemExt (o : List Char) : List Char × List Char :=
  if o.contains '.' then
    let r := o.reverse
    let before := r.takeWhile (fun c => c != '.')
    ((r.drop (before.length + 1)).reverse, '.' :: before.reverse)
  else (o, [])

def hasDblU : List Char → Bool
  | [] => false
  | [_] => false
  | a :: b :: rest => (a == '_' && b == '_') || hasDblU (b :: rest)

/-- `^[A-Z]{2,4}$`. -/
def upper2to4 (p : List Char) : Bool :=
  decide (2 ≤ p.length) && decide (p.length ≤ 4) && p.all isUpperC

def ignoreHit (o : List Char) : Bool :=
  IGNORE_PREFIXES.any (fun ig => startsWithL ig o)

/-- `audit_filename` over `List Char`; `Except.error` would mean an unguarded
    out-of-range token access. -/
def auditL (input : List Char) :
    Except Unit (Option (List Char) × List (List Char) × Bool) :=
  let o := pyStrip input
  if o = [] then Except.ok (some [], [strEmptyVal], true)
  else if ignoreHit o then Except.ok (none, [], false)
  else
    let is0 : List (List Char) := if spaceBeforeExt input then [noteSpaceExt] else []
    let se := splitStemExt o
    let p := if hasDblU se.1 then (cuMain se.1, is0 ++ [noteDblU]) else (se.1, is0)
    let tokens := (splitOnChar '_' p.1).filter (fun t => !t.isEmpty)
    match tokens with
    | [] => Except.ok (assemble_decision none (p.2 ++ [noteTerm]))
    | [_] => Except.ok (assemble_decision none (p.2 ++ [noteTerm]))
    | pfx :: rest =>
      if upper2to4 pfx then do
        let out ← dispatch pfx rest p.2
        match out with
        | Outcome2.fail ns => pure (assemble_decision none ns)
        | Outcome2.fin pf i d traw h ns => pure (finalizeF pf i d traw h ns se.2 o)
      else Except.ok (assemble_decision none (p.2 ++ [noteTerm]))

/-- `audit_filename` on strings. -/
def audit_filename (s : String) :
    Except Unit (Option (List Char) × List (List Char) × Bool) :=
  auditL s.toList

/-- Number of occurrences of a note in a notes list. -/
def countNote (x : List Char) : List (List Char) → Nat
  | [] => 0
  | y :: t => (if y = x then 1 else 0) + countNote x t

/-! ## Specification predicates -/

/-- A well-formed revision component: `Rev` followed by 1-2 digits. -/
def revGood (r : List Char) : Prop :=
  ∃ ds, r = 'R' :: 'e' :: 'v' :: ds ∧ ds ≠ [] ∧ ds.length ≤ 2 ∧ allDigits ds = true

/-- A usable date component: nonempty and underscore-free. -/
def dateOkP (d : List Char) : Prop := d ≠ [] ∧ ∀ c ∈ d, (c == '_') = false

def hrevOk : Option (List Char) → Prop
  | some r => revGood r
  | none => True

/-- Possible final notes of a failure outcome: the terminal message, or one of
    the three CSI-family failure messages. -/
def failTail (ns : List (List Char)) : Prop :=
  ns.getLast? = some noteTerm ∨ ns.getLast? = some noteMissCSI
    ∨ ns.getLast? = some noteInvCSI ∨ ns.getLast? = some noteInvDate

def Out2Spec : Outcome2 → Prop
  | Outcome2.fail ns => failTail ns ∧ countNote noteExtTok ns = 0
  | Outcome2.fin p _ d _ h ns =>
      upper2to4 p = true ∧ dateOkP d ∧ hrevOk h ∧ countNote noteExtTok ns = 0

/-- The extension the audit will re-attach to the assembled stem. -/
def extOf (input : List Char) : List Char := (splitStemExt (pyStrip input)).2

/-- Length contributed by the identifier slot to the stem-budget base. -/
def idPartLen (idc : Option (List Char)) : Nat :=
  match optTruthy idc with
  | some i => i.length + 1
  | none => 0

/-! ## Basic lemmas -/

theorem dropWhile_eq_self_of (p : Char → Bool) (l : List Char)
    (h : ∀ c ∈ l, p c = false) : l.dropWhile p = l := by
  cases l with
  | nil => rfl
  | cons a t =>
    rw [List.dropWhile_cons, h a (List.mem_cons_self a t)]
    simp

theorem pyStrip_eq_self {l : List Char} (h : ∀ c ∈ l, isSpaceC c = false) :
    pyStrip l = l := by
  unfold pyStrip
  rw [dropWhile_eq_self_of _ _ h,
    dropWhile_eq_self_of _ _ (fun c hc => h c (List.mem_reverse.mp hc)),
    List.reverse_reverse]

theorem space_cases {c : Char} (h : isSpaceC c = true) :
    c = ' ' ∨ c = '\t' ∨ c = '\n' ∨ c = '\r' ∨ c = '\x0b' ∨ c = '\x0c' := by
  have hh := h
  simp only [isSpaceC, Bool.or_eq_true, beq_iff_eq] at hh
  tauto

theorem digit_not_space {c : Char} (h : isDigitC c = true) : isSpaceC c = false := by
  by_contra hh
  rw [Bool.not_eq_false] at hh
  rcases space_cases hh with rfl | rfl | rfl | rfl | rfl | rfl <;> exact absurd h (by decide)

theorem allDigits_mem {l : List Char} (h : allDigits l = true) {c : Char} (hc : c ∈ l) :
    isDigitC c = true :=
  List.all_eq_true.mp h c hc

theorem splitOnChar_of_not_mem {c : Char} {l : List Char} (h : c ∉ l) :
    splitOnChar c l = [l] := by
  induction l with
  | nil => rfl
  | cons a t ih =>
    have ha : ¬ a = c := fun he => h (he ▸ List.mem_cons_self a t)
    have ht : c ∉ t := fun hm => h (List.mem_cons_of_mem a hm)
    rw [splitOnChar, if_neg ha, ih ht]

theorem splitOnChar_append {c : Char} {a rest : List Char} (h : c ∉ a) :
    splitOnChar c (a ++ c :: rest) = a :: splitOnChar c rest := by
  induction a with
  | nil => simp [splitOnChar]
  | cons x xs ih =>
    have hx : ¬ x = c := fun he => h (he ▸ List.mem_cons_self x xs)
    have hxs : c ∉ xs := fun hm => h (List.mem_cons_of_mem x hm)
    rw [List.cons_append, splitOnChar, if_neg hx, ih hxs]

/-! ## Claim theorems: concrete and leaf-level claims -/

theorem mem_slash3 {c : Char} {a b e : List Char}
    (hc : c ∈ a ++ '/' :: (b ++ '/' :: e)) :
    c ∈ a ∨ c ∈ b ∨ c ∈ e ∨ c = '/' := by
  simp only [List.mem_append, List.mem_cons] at hc
  tauto

theorem slash_not_mem_digits {a : List Char} (ha : allDigits a = true) : '/' ∉ a :=
  fun hm => absurd (allDigits_mem ha hm) (by decide)

theorem slash_token_facts {a b e : List Char}
    (ha : allDigits a = true) (hb : allDigits b = true) (he : allDigits e = true) :
    (∀ c ∈ a ++ '/' :: (b ++ '/' :: e), isSpaceC c = false)
  ∧ '-' ∉ a ++ '/' :: (b ++ '/' :: e)
  ∧ allDigits (a ++ '/' :: (b ++ '/' :: e)) = false := by
  refine ⟨?_, ?_, ?_⟩
  · intro c hc
    rcases mem_slash3 hc with h | h | h | rfl
    · exact digit_not_space (allDigits_mem ha h)
    · exact digit_not_space (allDigits_mem hb h)
    · exact digit_not_space (allDigits_mem he h)
    · decide
  · intro hm
    rcases mem_slash3 hm with h | h | h | h
    · exact absurd (allDigits_mem ha h) (by decide)
    · exact absurd (allDigits_mem hb h) (by decide)
    · exact absurd (allDigits_mem he h) (by decide)
    · exact absurd h (by decide)
  · by_contra hh
    rw [Bool.not_eq_false] at hh
    have hmem : ('/' : Char) ∈ a ++ '/' :: (b ++ '/' :: e) := by simp
    exact absurd (allDigits_mem hh hmem) (by decide)

/-- C10: slash-format dates (`M/D/YYYY` and `YYYY/M/D` with 1-2 digit month
and day fields) are repaired by zero-padding and reordering with NO calendar
validation — the result is returned even for month 13 or day 45 — while the
9-digit `YYYY0MMDD` repair path rejects calendar-invalid dates (shown on the
token `202401345`, i.e. month 13 day 45). -/
theorem try_normalize_date_slash_no_validation
    (mo d y : List Char)
    (hmo : allDigits mo = true) (hmo1 : 1 ≤ mo.length) (hmo2 : mo.length ≤ 2)
    (hd : allDigits d = true) (hd1 : 1 ≤ d.length) (hd2 : d.length ≤ 2)
    (hy : allDigits y = true) (hy4 : y.length = 4) :
    try_normalize_date (mo ++ '/' :: (d ++ '/' :: y)) =
      (some (y ++ pad2 (toNumL mo) ++ pad2 (toNumL d)), some noteDateMDY)
  ∧ try_normalize_date (y ++ '/' :: (mo ++ '/' :: d)) =
      (some (y ++ pad2 (toNumL mo) ++ pad2 (toNumL d)), some noteDateYMD)
  ∧ try_normalize_date "202401345".toList = (none, none) := by
  refine ⟨?_, ?_, by rfl⟩
  · obtain ⟨hsp, hdsh, hAD⟩ := slash_token_facts hmo hd hy
    have hne : mo ++ '/' :: (d ++ '/' :: y) ≠ [] := by simp
    have hsplit : splitOnChar '/' (mo ++ '/' :: (d ++ '/' :: y)) = [mo, d, y] := by
      rw [splitOnChar_append (slash_not_mem_digits hmo),
          splitOnChar_append (slash_not_mem_digits hd),
          splitOnChar_of_not_mem (slash_not_mem_digits hy)]
    have hMDY : dateMDYslash (mo ++ '/' :: (d ++ '/' :: y)) =
        some (y ++ pad2 (toNumL mo) ++ pad2 (toNumL d)) := by
      unfold dateMDYslash
      rw [hsplit]
      simp [hmo, hd, hy, hy4, hmo1, hmo2, hd1, hd2]
    have hdash : dateYMDdash (mo ++ '/' :: (d ++ '/' :: y)) = none := by
      unfold dateYMDdash
      rw [splitOnChar_of_not_mem hdsh]
    simp only [try_normalize_date, pyStrip_eq_self hsp]
    rw [if_neg hne, if_neg (by rw [hAD]; simp), hdash, hMDY]
  · obtain ⟨hsp, hdsh, hAD⟩ := slash_token_facts hy hmo hd
    have hne : y ++ '/' :: (mo ++ '/' :: d) ≠ [] := by simp
    have hsplit : splitOnChar '/' (y ++ '/' :: (mo ++ '/' :: d)) = [y, mo, d] := by
      rw [splitOnChar_append (slash_not_mem_digits hy),
          splitOnChar_append (slash_not_mem_digits hmo),
          splitOnChar_of_not_mem (slash_not_mem_digits hd)]
    have hMDY2 : dateMDYslash (y ++ '/' :: (mo ++ '/' :: d)) = none := by
      unfold dateMDYslash
      rw [hsplit]
      simp [hy4]
    have hYMD2 : dateYMDslash (y ++ '/' :: (mo ++ '/' :: d)) =
        some (y ++ pad2 (toNumL mo) ++ pad2 (toNumL d)) := by
      unfold dateYMDslash
      rw [hsplit]
      simp [hmo, hd, hy, hy4, hmo1, hmo2, hd1, hd2]
    have hdash : dateYMDdash (y ++ '/' :: (mo ++ '/' :: d)) = none := by
      unfold dateYMDdash
      rw [splitOnChar_of_not_mem hdsh]
    simp only [try_normalize_date, pyStrip_eq_self hsp]
    rw [if_neg hne, if_neg (by rw [hAD]; simp), hdash, hMDY2, hYMD2]

/-- Witness for C10 at `13/45/2024` (month 13, day 45). -/
theorem try_normalize_date_slash_no_validation_witness :
    try_normalize_date ("13".toList ++ '/' :: ("45".toList ++ '/' :: "2024".toList)) =
      (some ("2024".toList ++ pad2 (toNumL "13".toList) ++ pad2 (toNumL "45".toList)),
       some noteDateMDY)
  ∧ try_normalize_date ("2024".toList ++ '/' :: ("13".toList ++ '/' :: "45".toList)) =
      (some ("2024".toList ++ pad2 (toNumL "13".toList) ++ pad2 (toNumL "45".toList)),
       some noteDateYMD)
  ∧ try_normalize_date "202401345".toList = (none, none) :=
  try_normalize_date_slash_no_validation "13".toList "45".toList "2024".toList
    (by decide) (by decide) (by decide) (by decide) (by decide) (by decide)
    (by decide) (by decide)

/-- C4 (counterexample): on `TF_SiteMap_20240310_Rev02.pdf` the audit keeps the
revision digits verbatim (`Rev02`); the suggestion differs from the one the
claim states (`..._Rev2.pdf`), refuting the claim at this input. -/
theorem audit_tf_example_revision_digits_kept :
    audit_filename "TF_SiteMap_20240310_Rev02.pdf" =
      Except.ok (some "TF_20240310_SiteMap_Rev02.pdf".toList,
        [noteTFReint, noteRevNorm, noteRev0], true)
  ∧ "TF_20240310_SiteMap_Rev02.pdf".toList ≠ "TF_20240310_SiteMap_Rev2.pdf".toList :=
  ⟨rfl, by decide⟩

/-- C4 (amended): `audit_filename("TF_SiteMap_20240310_Rev02.pdf")` returns the
suggestion `TF_20240310_SiteMap_Rev02.pdf` (revision digits `02` kept verbatim,
not canonicalized to `Rev2`), with the reinterpreted-as-title note and the
`Normalized revision element.` note present, no note containing
`No FormID provided`, and additionally a spurious
`Added Rev0 (missing revision element).` note. -/
theorem audit_tf_example_eval :
    audit_filename "TF_SiteMap_20240310_Rev02.pdf" =
      Except.ok (some "TF_20240310_SiteMap_Rev02.pdf".toList,
        [noteTFReint, noteRevNorm, noteRev0], true)
  ∧ memNote noteTFReint [noteTFReint, noteRevNorm, noteRev0] = true
  ∧ memNote noteRevNorm [noteTFReint, noteRevNorm, noteRev0] = true
  ∧ ([noteTFReint, noteRevNorm, noteRev0].any
      (fun n => containsSub "No FormID provided".toList n)) = false :=
  ⟨rfl, by decide, by decide, by decide⟩

/-- C7: any input whose stripped form begins with an exemption prefix is
skipped: null suggestion, empty notes, `changed = false`. -/
theorem audit_exemption_skip (s : String) (h : ignoreHit (pyStrip s.toList) = true) :
    audit_filename s = Except.ok (none, [], false) := by
  have hne : ¬ pyStrip s.toList = [] := by
    intro he
    rw [he] at h
    exact absurd h (by decide)
  simp only [audit_filename, auditL, if_neg hne, if_pos h]

/-- Witness for C7 at the spec's own example `I-PAY_invoice_0001.pdf`. -/
theorem audit_exemption_skip_witness :
    audit_filename "I-PAY_invoice_0001.pdf" = Except.ok (none, [], false) :=
  audit_exemption_skip "I-PAY_invoice_0001.pdf" (by decide)

/-- C6 (counterexample): `03-0708` contains a hyphen, is not canonical, and has
exactly 6 digits, yet `normalize_csi` emits the `Auto-formatted CSI from 6
digits` note, not `Corrected malformed CSI hyphenation`. -/
theorem normalize_csi_hyphen_autoformat_note :
    "03-0708".toList.contains '-' = true
  ∧ canonCsi3 (pyStrip "03-0708".toList) = false
  ∧ canonCsi4 (pyStrip "03-0708".toList) = false
  ∧ ((pyStrip "03-0708".toList).filter isDigitC).length = 6
  ∧ normalize_csi "03-0708".toList = (some "03-07-08".toList, some noteCsiAuto6)
  ∧ noteCsiAuto6 ≠ noteCsiHyphen :=
  ⟨by decide, by decide, by decide, by decide, rfl, by decide⟩

/-- C6 (amended): for every token that is not already canonical and whose
digit count is exactly 6 or 8 (in particular every hyphenated such token),
`normalize_csi` returns the repaired code with the note
`Auto-formatted CSI from N digits`; the `Corrected malformed CSI hyphenation`
branch is unreachable because the digit-count branches return first. -/
theorem normalize_csi_autoformat_note (t : List Char)
    (hne : pyStrip t ≠ [])
    (hc3 : canonCsi3 (pyStrip t) = false) (hc4 : canonCsi4 (pyStrip t) = false)
    (h68 : ((pyStrip t).filter isDigitC).length = 6
        ∨ ((pyStrip t).filter isDigitC).length = 8) :
    normalize_csi t =
      (some (if ((pyStrip t).filter isDigitC).length = 6
          then fmtCsi3 ((pyStrip t).filter isDigitC)
          else fmtCsi4 ((pyStrip t).filter isDigitC)),
       some (if ((pyStrip t).filter isDigitC).length = 6
          then noteCsiAuto6 else noteCsiAuto8)) := by
  unfold normalize_csi
  rcases h68 with h | h <;> simp [hne, hc3, hc4, h]

/-- Witness for C6's amended theorem at the counterexample token. -/
theorem normalize_csi_autoformat_note_witness :
    normalize_csi "03-0708".toList =
      (some (if ((pyStrip "03-0708".toList).filter isDigitC).length = 6
          then fmtCsi3 ((pyStrip "03-0708".toList).filter isDigitC)
          else fmtCsi4 ((pyStrip "03-0708".toList).filter isDigitC)),
       some (if ((pyStrip "03-0708".toList).filter isDigitC).length = 6
          then noteCsiAuto6 else noteCsiAuto8)) :=
  normalize_csi_autoformat_note "03-0708".toList (by decide) (by decide) (by decide)
    (Or.inl (by decide))

/-- C1 (counterexample): the suggestion for `COR_20240101.pdf` is non-empty and
its notes carry no truncation note, yet re-auditing that suggestion returns it
with a NON-empty notes list (so the re-audit is `NeedsChanges`, not a silent
`Compliant`), refuting the idempotence claim. -/
theorem audit_reaudit_not_silent :
    audit_filename "COR_20240101.pdf" =
      Except.ok (some "COR_20240101_Rev0.pdf".toList, [noteRev0, noteUCount], true)
  ∧ memNote noteTrunc [noteRev0, noteUCount] = false
  ∧ "COR_20240101_Rev0.pdf".toList ≠ []
  ∧ audit_filename "COR_20240101_Rev0.pdf" =
      Except.ok (some "COR_20240101_Rev0.pdf".toList, [noteRevNorm, noteUCount], false)
  ∧ ([noteRevNorm, noteUCount] : List (List Char)) ≠ [] :=
  ⟨rfl, by decide, by decide, rfl, by decide⟩

/-- C2 (counterexample): a 60-character identifier defeats the budget: the
audit returns a non-empty suggestion whose stem has 78 characters (> 64),
because only the title is ever truncated. -/
theorem audit_stem_exceeds_budget :
    audit_filename
      "SOP_XXXXXXXXXXXXXXXXXXXXXXXXXXXXXXXXXXXXXXXXXXXXXXXXXXXXXXXXXXXX_20240101_T.pdf" =
      Except.ok
        (some ("SOP_XXXXXXXXXXXXXXXXXXXXXXXXXXXXXXXXXXXXXXXXXXXXXXXXXXXXXXXXXXXX_20240101_Rev0".toList
            ++ ".pdf".toList),
         [noteRev0, noteTrunc, noteUCount], true)
  ∧ 64 < "SOP_XXXXXXXXXXXXXXXXXXXXXXXXXXXXXXXXXXXXXXXXXXXXXXXXXXXXXXXXXXXX_20240101_Rev0".toList.length :=
  ⟨rfl, by decide⟩

/-- C3 (counterexample): on the CSI-required failure path
(`CA_20240101_Title.pdf`, date where the CSI code should be) the decision is
NonCompliant (empty suggestion on non-blank input) but the notes end with
`Missing CSI section.`, not with the fixed terminal message. -/
theorem audit_csi_failure_terminal_absent :
    audit_filename "CA_20240101_Title.pdf" = Except.ok (some [], [noteMissCSI], true)
  ∧ pyStrip "CA_20240101_Title.pdf".toList ≠ []
  ∧ [noteMissCSI].getLast? = some noteMissCSI
  ∧ noteMissCSI ≠ noteTerm :=
  ⟨rfl, by decide, rfl, by decide⟩

/-- C5 (counterexample): `LG_20240101.pdf` (no identifier required, empty
title) yields the non-empty suggestion `LG_20240101_Rev0.pdf` whose stem has
exactly 2 underscores, not the claimed 3. -/
theorem audit_underscore_count_two :
    audit_filename "LG_20240101.pdf" =
      Except.ok (some ("LG_20240101_Rev0".toList ++ ".pdf".toList),
        [noteRev0, noteUCount], true)
  ∧ countU "LG_20240101_Rev0".toList = 2 :=
  ⟨rfl, by decide⟩

/-- C8 (counterexample): on `COR_20240101_Mapdfpdfpdf.pdf` both runs of the
extension-stripping pass fire, so `Removed extra extension token from title.`
appears twice in the returned notes. -/
theorem audit_ext_note_twice :
    audit_filename "COR_20240101_Mapdfpdfpdf.pdf" =
      Except.ok (some "COR_20240101_Mapdf_Rev0.pdf".toList,
        [noteRev0, noteExtTok, noteExtTok, noteNormTitle], true)
  ∧ countNote noteExtTok [noteRev0, noteExtTok, noteExtTok, noteNormTitle] = 2 :=
  ⟨rfl, by decide⟩

/-! ## Counting and note-membership lemmas -/

theorem countNote_append (x : List Char) (a b : List (List Char)) :
    countNote x (a ++ b) = countNote x a + countNote x b := by
  induction a with
  | nil => simp [countNote]
  | cons y t ih => simp [countNote, ih, Nat.add_assoc]

theorem countNote_single {x y : List Char} (h : ¬ y = x) :
    countNote x [y] = 0 := by
  simp [countNote, h]

theorem memNote_append_right (x : List Char) (a b : List (List Char))
    (h : memNote x b = true) : memNote x (a ++ b) = true := by
  induction a with
  | nil => exact h
  | cons y t ih => by_cases hy : y = x <;> simp [memNote, hy, ih]

theorem memNote_append_left (x : List Char) (a b : List (List Char))
    (h : memNote x a = true) : memNote x (a ++ b) = true := by
  induction a with
  | nil => exact absurd h (by simp [memNote])
  | cons y t ih =>
    by_cases hy : y = x
    · simp [memNote, hy]
    · simp only [memNote, if_neg hy] at h ⊢
      exact ih h

theorem ne_of_head_append {pre x b : List Char} {n : Nat} (hlen : n < pre.length)
    (h8 : pre.get? n ≠ b.get? n) : ¬ pre ++ x = b := by
  intro he
  apply h8
  rw [← he, List.get?_append hlen]

theorem idNoteSpaces_ne (lbl : List Char) : ¬ idNoteSpaces lbl = noteExtTok := by
  unfold idNoteSpaces
  simp only [List.append_assoc]
  apply ne_of_head_append (n := 8) <;> decide

theorem idNoteUnders_ne (lbl : List Char) : ¬ idNoteUnders lbl = noteExtTok := by
  unfold idNoteUnders
  simp only [List.append_assoc]
  apply ne_of_head_append (n := 8) <;> decide

theorem idNoteSpecial_ne (lbl : List Char) : ¬ idNoteSpecial lbl = noteExtTok := by
  unfold idNoteSpecial
  simp only [List.append_assoc]
  apply ne_of_head_append (n := 8) <;> decide

theorem noteMissIdDate_ne (lbl : List Char) : ¬ noteMissIdDate lbl = noteExtTok := by
  unfold noteMissIdDate
  simp only [List.append_assoc]
  apply ne_of_head_append (n := 0) <;> decide

theorem noteMissIdBefore_ne (p lbl : List Char) : ¬ noteMissIdBefore p lbl = noteExtTok := by
  unfold noteMissIdBefore
  simp only [List.append_assoc]
  apply ne_of_head_append (n := 0) <;> decide

/-! ## Date-output goodness -/

theorem digitChar_eq_star {n : Nat} (h : 16 ≤ n) : Nat.digitChar n = '*' := by
  unfold Nat.digitChar
  simp [show n ≠ 0 by omega, show n ≠ 1 by omega, show n ≠ 2 by omega,
    show n ≠ 3 by omega, show n ≠ 4 by omega, show n ≠ 5 by omega,
    show n ≠ 6 by omega, show n ≠ 7 by omega, show n ≠ 8 by omega,
    show n ≠ 9 by omega, show n ≠ 10 by omega, show n ≠ 11 by omega,
    show n ≠ 12 by omega, show n ≠ 13 by omega, show n ≠ 14 by omega,
    show n ≠ 15 by omega]

theorem digitChar_ne_underscore (n : Nat) : ((Nat.digitChar n) == '_') = false := by
  rcases Nat.lt_or_ge n 16 with h | h
  · interval_cases n <;> rfl
  · rw [digitChar_eq_star h]; rfl

theorem pad2_no_underscore (n : Nat) : ∀ c ∈ pad2 n, (c == '_') = false := by
  intro c hc
  simp only [pad2, List.mem_cons, List.not_mem_nil, or_false] at hc
  rcases hc with rfl | rfl <;> exact digitChar_ne_underscore _

theorem digit_ne_underscore {c : Char} (h : isDigitC c = true) : (c == '_') = false := by
  by_contra hb
  rw [Bool.not_eq_false, beq_iff_eq] at hb
  subst hb
  exact absurd h (by decide)

theorem dateOkP_of_digits {d : List Char} (hne : d ≠ []) (hd : allDigits d = true) :
    dateOkP d :=
  ⟨hne, fun c hc => digit_ne_underscore (allDigits_mem hd hc)⟩

theorem dateYMDdash_ok {s d : List Char} (h : dateYMDdash s = some d) : dateOkP d := by
  unfold dateYMDdash at h
  split at h
  · split at h
    · rename_i y mo dd heq hcond
      injection h with h
      subst h
      simp only [Bool.and_eq_true, decide_eq_true_eq] at hcond
      obtain ⟨⟨⟨⟨⟨hy4, hmo2⟩, hd2⟩, hyD⟩, hmoD⟩, hdD⟩ := hcond
      refine dateOkP_of_digits ?_ ?_
      · intro he
        have hl := congrArg List.length he
        simp [hy4] at hl
      · simp only [allDigits, List.all_append] at hyD hmoD hdD ⊢
        rw [hyD, hmoD, hdD]
        rfl
    · exact absurd h (by simp)
  · exact absurd h (by simp)

theorem slash_out_ok {y : List Char} (hy : allDigits y = true)
    (a b : Nat) : dateOkP (y ++ pad2 a ++ pad2 b) := by
  constructor
  · intro he
    have hl := congrArg List.length he
    simp [pad2] at hl
  · intro c hc
    simp only [List.mem_append] at hc
    rcases hc with hc | hc
    rcases hc with hc | hc
    · exact digit_ne_underscore (allDigits_mem hy hc)
    · exact pad2_no_underscore a c hc
    · exact pad2_no_underscore b c hc

theorem dateMDYslash_ok {s d : List Char} (h : dateMDYslash s = some d) : dateOkP d := by
  unfold dateMDYslash at h
  split at h
  · split at h
    · rename_i mo dd y heq hcond
      injection h with h
      subst h
      simp only [Bool.and_eq_true, decide_eq_true_eq] at hcond
      exact slash_out_ok hcond.2 _ _
    · exact absurd h (by simp)
  · exact absurd h (by simp)

theorem dateYMDslash_ok {s d : List Char} (h : dateYMDslash s = some d) : dateOkP d := by
  unfold dateYMDslash at h
  split at h
  · split at h
    · rename_i y mo dd heq hcond
      injection h with h
      subst h
      simp only [Bool.and_eq_true, decide_eq_true_eq] at hcond
      exact slash_out_ok hcond.1.1.2 _ _
    · exact absurd h (by simp)
  · exact absurd h (by simp)

theorem dateNine_ok {s d : List Char} (h : dateNine s = some d) : dateOkP d := by
  unfold dateNine at h
  split at h
  · split at h
    · split at h
      · rename_i y1 y2 y3 y4 z m1 m2 d1 d2 heq hcond hvalid
        injection h with h
        subst h
        simp only [Bool.and_eq_true, decide_eq_true_eq] at hcond
        exact dateOkP_of_digits (by simp) (by
          have hall := hcond.2
          simp only [allDigits, List.all_cons, List.all_nil, Bool.and_eq_true] at hall ⊢
          tauto)
      · exact absurd h (by simp)
    · exact absurd h (by simp)
  · exact absurd h (by simp)

theorem tnd_some_ok {t d : List Char} {n : Option (List Char)}
    (h : try_normalize_date t = (some d, n)) : dateOkP d := by
  simp only [try_normalize_date] at h
  split at h
  · exact absurd h (by simp)
  · rename_i hne
    split at h
    · rename_i hcond
      simp only [Prod.mk.injEq] at h
      obtain ⟨h1, _⟩ := h
      injection h1 with h1
      subst h1
      simp only [Bool.and_eq_true, decide_eq_true_eq] at hcond
      exact dateOkP_of_digits hne hcond.2
    · split at h
      · rename_i dd hdd
        simp only [Prod.mk.injEq] at h
        obtain ⟨h1, _⟩ := h
        injection h1 with h1
        subst h1
        exact dateYMDdash_ok hdd
      · split at h
        · rename_i dd hdd
          simp only [Prod.mk.injEq] at h
          obtain ⟨h1, _⟩ := h
          injection h1 with h1
          subst h1
          exact dateMDYslash_ok hdd
        · split at h
          · rename_i dd hdd
            simp only [Prod.mk.injEq] at h
            obtain ⟨h1, _⟩ := h
            injection h1 with h1
            subst h1
            exact dateYMDslash_ok hdd
          · split at h
            · rename_i dd hdd
              simp only [Prod.mk.injEq] at h
              obtain ⟨h1, _⟩ := h
              injection h1 with h1
              subst h1
              exact dateNine_ok hdd
            · exact absurd h (by simp)

/-! ## Per-note zero-count facts -/

theorem cz_revO : countNote noteExtTok [noteRevO] = 0 := by decide
theorem cz_revON : countNote noteExtTok [noteRevO, noteRevNorm] = 0 := by decide
theorem cz_revOND : countNote noteExtTok [noteRevO, noteRevNorm, noteRevDot] = 0 := by decide
theorem cz_revND : countNote noteExtTok [noteRevNorm, noteRevDot] = 0 := by decide
theorem cz_revEND : countNote noteExtTok [noteRevEmb, noteRevNorm, noteRevDot] = 0 := by decide
theorem cz_revEN0 : countNote noteExtTok [noteRevEmb, noteRevNorm, noteRev0] = 0 := by decide
theorem cz_revEN0D : countNote noteExtTok [noteRevEmb, noteRevNorm, noteRev0, noteRevDot] = 0 := by decide
theorem cz_rev0D : countNote noteExtTok [noteRev0, noteRevDot] = 0 := by decide
theorem cz_revNorm : countNote noteExtTok [noteRevNorm] = 0 := by decide
theorem cz_revEmbNorm : countNote noteExtTok [noteRevEmb, noteRevNorm] = 0 := by decide
theorem cz_rev0 : countNote noteExtTok [noteRev0] = 0 := by decide
theorem cz_revDot : countNote noteExtTok [noteRevDot] = 0 := by decide
theorem cz_amp : countNote noteExtTok [noteAmp] = 0 := by decide
theorem cz_spacesT : countNote noteExtTok [noteSpacesT] = 0 := by decide
theorem cz_undersT : countNote noteExtTok [noteUndersT] = 0 := by decide
theorem cz_specialT : countNote noteExtTok [noteSpecialT] = 0 := by decide
theorem cz_normTitle : countNote noteExtTok [noteNormTitle] = 0 := by decide
theorem cz_trunc : countNote noteExtTok [noteTrunc] = 0 := by decide
theorem cz_ucount : countNote noteExtTok [noteUCount] = 0 := by decide
theorem cz_trailU : countNote noteExtTok [noteTrailU] = 0 := by decide
theorem cz_extTok : countNote noteExtTok [noteExtTok] = 1 := by decide
theorem cz_term : countNote noteExtTok [noteTerm] = 0 := by decide
theorem cz_invDate : countNote noteExtTok [noteInvDate] = 0 := by decide
theorem cz_remNonDate : countNote noteExtTok [noteRemNonDate] = 0 := by decide
theorem cz_missAudit : countNote noteExtTok [noteMissAudit] = 0 := by decide
theorem cz_missAuditB : countNote noteExtTok [noteMissAuditBefore] = 0 := by decide
theorem cz_missTask : countNote noteExtTok [noteMissTask] = 0 := by decide
theorem cz_missTask2 : countNote noteExtTok [noteMissTask2] = 0 := by decide
theorem cz_tfNoForm : countNote noteExtTok [noteTFNoForm] = 0 := by decide
theorem cz_tfReint : countNote noteExtTok [noteTFReint, noteRevNorm] = 0 := by decide
theorem cz_missCSI : countNote noteExtTok [noteMissCSI] = 0 := by decide
theorem cz_invCSI : countNote noteExtTok [noteInvCSI] = 0 := by decide
theorem cz_wr : countNote noteExtTok [noteWR] = 0 := by decide
theorem cz_spaceExt : countNote noteExtTok [noteSpaceExt] = 0 := by decide
theorem cz_dblU : countNote noteExtTok [noteDblU] = 0 := by decide
theorem cz_idSpaces (lbl : List Char) : countNote noteExtTok [idNoteSpaces lbl] = 0 :=
  countNote_single (idNoteSpaces_ne lbl)
theorem cz_idUnders (lbl : List Char) : countNote noteExtTok [idNoteUnders lbl] = 0 :=
  countNote_single (idNoteUnders_ne lbl)
theorem cz_idSpecial (lbl : List Char) : countNote noteExtTok [idNoteSpecial lbl] = 0 :=
  countNote_single (idNoteSpecial_ne lbl)
theorem cz_missIdDate (lbl : List Char) : countNote noteExtTok [noteMissIdDate lbl] = 0 :=
  countNote_single (noteMissIdDate_ne lbl)
theorem cz_missIdBefore (p lbl : List Char) :
    countNote noteExtTok [noteMissIdBefore p lbl] = 0 :=
  countNote_single (noteMissIdBefore_ne p lbl)

/-! ## Revision extractor: goodness of the produced `Rev##` -/

theorem isRevDig_fixO {c : Char} (h : isRevDig c = true) : isDigitC (fixO c) = true := by
  unfold fixO
  split
  · decide
  · rename_i hno
    simp only [isRevDig, Bool.or_eq_true, beq_iff_eq] at h
    rcases h with (hd | rfl) | rfl
    · exact hd
    · exact absurd (Or.inr rfl) hno
    · exact absurd (Or.inl rfl) hno

theorem map_fixO_digits {ds : List Char} (h : ds.all isRevDig = true) :
    allDigits (ds.map fixO) = true := by
  rw [allDigits, List.all_map]
  exact List.all_eq_true.mpr fun c hc =>
    isRevDig_fixO (List.all_eq_true.mp h c hc)

theorem takeWhile_all (p : Char → Bool) (l : List Char) :
    (l.takeWhile p).all p = true :=
  List.all_eq_true.mpr fun _ hc => List.mem_takeWhile_imp hc

theorem canonRevSplit_good {s base digs : List Char}
    (h : canonRevSplit s = some (base, digs)) :
    digs ≠ [] ∧ digs.length ≤ 2 ∧ allDigits digs = true := by
  simp only [canonRevSplit] at h
  split at h
  · rename_i hlen
    split at h
    · rename_i rest heq
      simp only [Option.some.injEq, Prod.mk.injEq] at h
      obtain ⟨h1, h2⟩ := h
      subst h2
      simp only [Bool.or_eq_true, decide_eq_true_eq] at hlen
      refine ⟨?_, ?_, ?_⟩
      · intro hnil
        have hl2 := congrArg List.length hnil
        simp only [List.length_reverse, List.length_nil] at hl2
        rcases hlen with hob | hob <;> omega
      · rw [List.length_reverse]
        rcases hlen with hob | hob <;> omega
      · rw [allDigits, List.all_reverse]
        exact takeWhile_all _ _
    · exact absurd h (by simp)
  · exact absurd h (by simp)

theorem revAnySplit_good {s pre raw : List Char}
    (h : revAnySplit s = some (pre, raw)) :
    raw ≠ [] ∧ raw.length ≤ 2 ∧ raw.all isRevDig = true := by
  simp only [revAnySplit] at h
  split at h
  · rename_i hlen
    split at h
    · rename_i v e rr rest heq
      split at h
      · simp only [Option.some.injEq, Prod.mk.injEq] at h
        obtain ⟨h1, h2⟩ := h
        subst h2
        simp only [Bool.or_eq_true, decide_eq_true_eq] at hlen
        refine ⟨?_, ?_, ?_⟩
        · intro hnil
          have hl2 := congrArg List.length hnil
          simp only [List.length_reverse, List.length_nil] at hl2
          rcases hlen with hob | hob <;> omega
        · rw [List.length_reverse]
          rcases hlen with hob | hob <;> omega
        · rw [List.all_reverse]
          exact takeWhile_all _ _
      · exact absurd h (by simp)
    · exact absurd h (by simp)
  · exact absurd h (by simp)

theorem tryEmbRev_good {l ds rem : List Char} (h : tryEmbRev l = some (ds, rem)) :
    ds ≠ [] ∧ ds.length ≤ 2 ∧ ds.all isRevDig = true := by
  unfold tryEmbRev at h
  repeat' split at h
  all_goals first
    | (exfalso; revert h; simp; done)
    | (simp only [Option.some.injEq, Prod.mk.injEq] at h
       obtain ⟨h1, h2⟩ := h
       subst h1
       refine ⟨by simp, by simp, ?_⟩
       simp_all [List.all_cons, List.all_nil]
       done)

/-- Property of digits captured by the embedded-rev scan accumulator. -/
theorem embSubGo_acc : ∀ (fuel : Nat) (l : List Char) (acc : Option (List Char)),
    (∀ ds, acc = some ds → ds ≠ [] ∧ ds.length ≤ 2 ∧ ds.all isRevDig = true) →
    ∀ ds, (embSubGo fuel l acc).2 = some ds →
      ds ≠ [] ∧ ds.length ≤ 2 ∧ ds.all isRevDig = true := by
  intro fuel
  induction fuel with
  | zero => intro l acc hacc ds h; exact hacc ds h
  | succ n ih =>
    intro l acc hacc ds h
    match l with
    | [] => exact hacc ds h
    | c :: rest =>
      rw [embSubGo] at h
      split at h
      · split at h
        · rename_i ds2 rem heq
          exact ih rem (some ds2) (fun x hx => by cases hx; exact tryEmbRev_good heq) ds h
        · exact ih rest acc hacc ds h
      · exact ih rest acc hacc ds h

theorem embSub_cap {s ds : List Char} (h : (embSub s).2 = some ds) :
    ds ≠ [] ∧ ds.length ≤ 2 ∧ ds.all isRevDig = true := by
  unfold embSub at h
  split at h
  · rename_i ds2 rem heq
    exact embSubGo_acc _ _ _ (fun x hx => by cases hx; exact tryEmbRev_good heq) ds h
  · exact embSubGo_acc _ _ _ (fun x hx => by cases hx) ds h

theorem revGood_of_digits {ds : List Char} (h1 : ds ≠ []) (h2 : ds.length ≤ 2)
    (h3 : allDigits ds = true) : revGood ('R' :: 'e' :: 'v' :: ds) :=
  ⟨ds, rfl, h1, h2, h3⟩

theorem extract_rev_revGood (t : List Char) (ns : List (List Char)) :
    revGood (extract_rev t ns).2.1 := by
  simp only [extract_rev]
  split
  · rename_i base digs heq
    obtain ⟨h1, h2, h3⟩ := canonRevSplit_good heq
    exact revGood_of_digits h1 h2 h3
  · split
    · rename_i pre raw heq
      obtain ⟨h1, h2, h3⟩ := revAnySplit_good heq
      refine revGood_of_digits ?_ ?_ (map_fixO_digits h3)
      · intro hnil
        exact h1 (List.map_eq_nil_iff.mp hnil)
      · rw [List.length_map]
        exact h2
    · split
      · rename_i s2 rawDs heq
        have hcap : (embSub (rstripWS t)).2 = some rawDs := by rw [heq]
        obtain ⟨h1, h2, h3⟩ := embSub_cap hcap
        refine revGood_of_digits ?_ ?_ (map_fixO_digits h3)
        · intro hnil
          exact h1 (List.map_eq_nil_iff.mp hnil)
        · rw [List.length_map]
          exact h2
      · exact ⟨['0'], rfl, by simp, by simp, by decide⟩

theorem extract_rev_extCount (t : List Char) (ns : List (List Char)) :
    countNote noteExtTok (extract_rev t ns).2.2 = countNote noteExtTok ns := by
  simp only [extract_rev]
  split
  · rfl
  · split
    · simp only []
      split <;> split <;>
        simp [countNote_append, cz_revO, cz_revNorm, cz_revDot, cz_revON, cz_revOND,
          cz_revND]
    · split
      · simp only []
        split <;>
          simp [countNote_append, cz_revEmbNorm, cz_revDot, cz_revEND]
      · simp only []
        split <;> split <;>
          simp [countNote_append, cz_revEmbNorm, cz_rev0, cz_revDot, cz_revEN0,
            cz_revEN0D, cz_rev0D]

/-! ## Dispatcher supporting lemmas -/

theorem cz_dateDash : countNote noteExtTok [noteDateDash] = 0 := by decide
theorem cz_dateMDY : countNote noteExtTok [noteDateMDY] = 0 := by decide
theorem cz_dateYMD : countNote noteExtTok [noteDateYMD] = 0 := by decide
theorem cz_dateNine : countNote noteExtTok [noteDateNine] = 0 := by decide
theorem cz_csi6 : countNote noteExtTok [noteCsiAuto6] = 0 := by decide
theorem cz_csi8 : countNote noteExtTok [noteCsiAuto8] = 0 := by decide
theorem cz_csiHy : countNote noteExtTok [noteCsiHyphen] = 0 := by decide

theorem tnd_note_cases {t : List Char} {d : Option (List Char)} {nn : List Char}
    (h : try_normalize_date t = (d, some nn)) :
    nn = noteDateDash ∨ nn = noteDateMDY ∨ nn = noteDateYMD ∨ nn = noteDateNine := by
  simp only [try_normalize_date] at h
  repeat' split at h
  all_goals first
    | (exfalso; revert h; simp; done)
    | (simp only [Prod.mk.injEq, Option.some.injEq] at h
       rcases h with ⟨h1, rfl⟩
       tauto)

theorem needDate_some_ok {t0 dd : List Char} {is0 is1 : List (List Char)}
    (h : needDate t0 is0 = (some dd, is1)) : dateOkP dd := by
  unfold needDate at h
  split at h
  · exact absurd h (by simp)
  · split at h
    · rename_i dd2 nn heq
      simp only [Prod.mk.injEq, Option.some.injEq] at h
      obtain ⟨rfl, _⟩ := h
      exact tnd_some_ok heq
    · rename_i dd2 heq
      simp only [Prod.mk.injEq, Option.some.injEq] at h
      obtain ⟨rfl, _⟩ := h
      exact tnd_some_ok heq
    · exact absurd h (by simp)

theorem needDate_extCount (t0 : List Char) (is0 : List (List Char)) :
    countNote noteExtTok (needDate t0 is0).2 = countNote noteExtTok is0 := by
  unfold needDate
  split
  · rfl
  · split
    · rename_i dd nn heq
      rcases tnd_note_cases heq with rfl | rfl | rfl | rfl <;>
        simp [countNote_append, cz_dateDash, cz_dateMDY, cz_dateYMD, cz_dateNine]
    · rfl
    · rfl

theorem needDateOpt_some_ok {t0 : Option (List Char)} {dd : List Char}
    {is0 is1 : List (List Char)}
    (h : needDateOpt t0 is0 = (some dd, is1)) : dateOkP dd := by
  unfold needDateOpt at h
  split at h
  · exact absurd h (by simp)
  · exact needDate_some_ok h

theorem needDateOpt_extCount (t0 : Option (List Char)) (is0 : List (List Char)) :
    countNote noteExtTok (needDateOpt t0 is0).2 = countNote noteExtTok is0 := by
  unfold needDateOpt
  split
  · rfl
  · exact needDate_extCount _ _

theorem findDate_some_ok : ∀ (toks : List (List Char)) (is0 : List (List Char))
    {i : Nat} {dd : List Char} {is1 : List (List Char)},
    findDate toks is0 = (some (i, dd), is1) → dateOkP dd := by
  intro toks
  induction toks with
  | nil =>
    intro is0 i dd is1 h
    simp [findDate] at h
  | cons t ts ih =>
    intro is0 i dd is1 h
    rw [findDate] at h
    split at h
    · rename_i dd2 is2 heq
      simp only [Prod.mk.injEq, Option.some.injEq] at h
      obtain ⟨⟨_, rfl⟩, _⟩ := h
      exact needDate_some_ok heq
    · rename_i is2 heq
      split at h
      · rename_i j dd2 isr heq2
        simp only [Prod.mk.injEq, Option.some.injEq] at h
        obtain ⟨⟨_, rfl⟩, _⟩ := h
        exact ih is2 heq2
      · exact absurd h (by simp)

theorem findDate_extCount : ∀ (toks : List (List Char)) (is0 : List (List Char)),
    countNote noteExtTok (findDate toks is0).2 = countNote noteExtTok is0 := by
  intro toks
  induction toks with
  | nil => intro is0; rfl
  | cons t ts ih =>
    intro is0
    rw [findDate]
    have hnd := needDate_extCount t is0
    split
    · rename_i dd2 is2 heq
      rw [heq] at hnd
      exact hnd
    · rename_i is2 heq
      rw [heq] at hnd
      have hfd := ih is2
      split
      · rename_i j dd2 isr heq2
        rw [heq2] at hfd
        rw [hfd]
        exact hnd
      · rename_i isr heq2
        rw [heq2] at hfd
        rw [hfd]
        exact hnd

theorem needDate_extCount2 {t0 : List Char} {is0 : List (List Char)}
    {d : Option (List Char)} {is1 : List (List Char)}
    (h : needDate t0 is0 = (d, is1)) :
    countNote noteExtTok is1 = countNote noteExtTok is0 := by
  have hx := needDate_extCount t0 is0
  rw [h] at hx
  exact hx

theorem needDateOpt_extCount2 {t0 : Option (List Char)} {is0 : List (List Char)}
    {d : Option (List Char)} {is1 : List (List Char)}
    (h : needDateOpt t0 is0 = (d, is1)) :
    countNote noteExtTok is1 = countNote noteExtTok is0 := by
  have hx := needDateOpt_extCount t0 is0
  rw [h] at hx
  exact hx

theorem findDate_extCount2 {toks : List (List Char)} {is0 : List (List Char)}
    {r : Option (Nat × List Char)} {is1 : List (List Char)}
    (h : findDate toks is0 = (r, is1)) :
    countNote noteExtTok is1 = countNote noteExtTok is0 := by
  have hx := findDate_extCount toks is0
  rw [h] at hx
  exact hx

theorem sanitize_id_any_extCount (raw : List Char) (ns : List (List Char))
    (lbl : List Char) :
    countNote noteExtTok (sanitize_id_any raw ns lbl).2 = countNote noteExtTok ns := by
  simp only [sanitize_id_any]
  split <;> split <;> split <;>
    simp [countNote_append, countNote, idNoteSpaces_ne lbl, idNoteUnders_ne lbl,
      idNoteSpecial_ne lbl]

theorem sanitizeIdList_extCount : ∀ (toks : List (List Char)) (ns : List (List Char)),
    countNote noteExtTok (sanitizeIdList toks ns).2 = countNote noteExtTok ns := by
  intro toks
  induction toks with
  | nil => intro ns; rfl
  | cons t ts ih =>
    intro ns
    rw [sanitizeIdList]
    simp only []
    rw [ih, sanitize_id_any_extCount]

theorem normalize_csi_note_cases {tok : List Char} {csi : Option (List Char)}
    {nn : List Char} (h : normalize_csi tok = (csi, some nn)) :
    nn = noteCsiAuto6 ∨ nn = noteCsiAuto8 ∨ nn = noteCsiHyphen := by
  simp only [normalize_csi] at h
  repeat' split at h
  all_goals first
    | (exfalso; revert h; simp; done)
    | (simp only [Prod.mk.injEq, Option.some.injEq] at h
       rcases h with ⟨h1, rfl⟩
       tauto)

/-! ## Failure-tail and reduction helpers -/

theorem getLast_append_one (ns : List (List Char)) (a : List Char) :
    (ns ++ [a]).getLast? = some a := List.getLast?_concat ns

theorem getLast_append_two (ns : List (List Char)) (a b : List Char) :
    (ns ++ [a, b]).getLast? = some b := by
  rw [show ns ++ [a, b] = (ns ++ [a]) ++ [b] by simp]
  exact List.getLast?_concat _

theorem failTail_one_term (ns : List (List Char)) : failTail (ns ++ [noteTerm]) :=
  Or.inl (getLast_append_one ns _)

theorem failTail_two_term (ns : List (List Char)) (a : List Char) :
    failTail (ns ++ [a, noteTerm]) :=
  Or.inl (getLast_append_two ns a _)

theorem failTail_missCSI (ns : List (List Char)) : failTail (ns ++ [noteMissCSI]) :=
  Or.inr (Or.inl (getLast_append_one ns _))

theorem failTail_invCSI (ns : List (List Char)) : failTail (ns ++ [noteInvCSI]) :=
  Or.inr (Or.inr (Or.inl (getLast_append_one ns _)))

theorem failTail_invDate (ns : List (List Char)) : failTail (ns ++ [noteInvDate]) :=
  Or.inr (Or.inr (Or.inr (getLast_append_one ns _)))

theorem idx_cons_zero (t0 : List Char) (ts : List (List Char)) :
    idx (t0 :: ts) 0 = Except.ok t0 := rfl

theorem idx_cons_one (t0 t1 : List Char) (ts : List (List Char)) :
    idx (t0 :: t1 :: ts) 1 = Except.ok t1 := rfl

theorem exc_bind_ok {α β : Type} (a : α) (f : α → Except Unit β) :
    (Except.ok a : Except Unit α) >>= f = f a := rfl

theorem exc_pure {β : Type} (a : β) : (pure a : Except Unit β) = Except.ok a := rfl

theorem cz_invDateT : countNote noteExtTok [noteInvDate, noteTerm] = 0 := by decide
theorem cz_missAuditT : countNote noteExtTok [noteMissAudit, noteTerm] = 0 := by decide
theorem cz_missAuditBT : countNote noteExtTok [noteMissAuditBefore, noteTerm] = 0 := by decide
theorem cz_missTaskT : countNote noteExtTok [noteMissTask, noteTerm] = 0 := by decide
theorem cz_missTask2T : countNote noteExtTok [noteMissTask2, noteTerm] = 0 := by decide

theorem cz_missIdDateT (lbl : List Char) :
    countNote noteExtTok [noteMissIdDate lbl, noteTerm] = 0 := by
  simp [countNote, noteMissIdDate_ne lbl, (by decide : ¬ noteTerm = noteExtTok)]

theorem cz_missIdBeforeT (p lbl : List Char) :
    countNote noteExtTok [noteMissIdBefore p lbl, noteTerm] = 0 := by
  simp [countNote, noteMissIdBefore_ne p lbl, (by decide : ¬ noteTerm = noteExtTok)]

theorem exists_cons_of_ne_nil {rest : List (List Char)} (h : ¬ rest = []) :
    ∃ t0 ts, rest = t0 :: ts := by
  cases rest with
  | nil => exact absurd rfl h
  | cons a b => exact ⟨a, b, rfl⟩

theorem exists_two_of_not_lt {rest : List (List Char)} (h : ¬ rest.length < 2) :
    ∃ t0 t1 ts, rest = t0 :: t1 :: ts := by
  match rest with
  | [] => exact absurd (by simp) h
  | [a] => exact absurd (by simp) h
  | a :: b :: ts => exact ⟨a, b, ts, rfl⟩

/-! ## Branch specifications -/

theorem corBranch_spec (rest : List (List Char)) (is0 : List (List Char))
    (hc : countNote noteExtTok is0 = 0) :
    ∃ out, corBranch rest is0 = Except.ok out ∧ Out2Spec out := by
  unfold corBranch
  split
  · rename_i is1 heq
    have hfd := findDate_extCount2 heq
    exact ⟨_, rfl, failTail_two_term _ _,
      by rw [countNote_append, hfd, hc, cz_invDateT]⟩
  · rename_i i d is1 heq
    have hfd := findDate_extCount2 heq
    refine ⟨_, rfl, by decide, findDate_some_ok rest is0 heq, trivial, ?_⟩
    split
    · rw [countNote_append, hfd, hc, cz_remNonDate]
    · rw [hfd, hc]

theorem qaBranch_spec (rest : List (List Char)) (is0 : List (List Char))
    (hc : countNote noteExtTok is0 = 0) :
    ∃ out, qaBranch rest is0 = Except.ok out ∧ Out2Spec out := by
  simp only [qaBranch]
  split
  · exact ⟨_, rfl, failTail_one_term _, by rw [countNote_append, hc, cz_term]⟩
  · rename_i hne
    obtain ⟨t0, ts, rfl⟩ := exists_cons_of_ne_nil hne
    rw [idx_cons_zero, exc_bind_ok]
    split
    · rename_i dd is1 heq
      have hnd := needDate_extCount2 heq
      exact ⟨_, rfl, by decide, needDate_some_ok heq, trivial, by rw [hnd]; exact hc⟩
    · rename_i is1 heq
      have hnd := needDate_extCount2 heq
      have hsc := sanitize_id_any_extCount t0 is1 ("QMS-ID".toList)
      split
      · exact ⟨_, rfl, failTail_one_term _,
          by rw [countNote_append, hsc, hnd, hc, cz_term]⟩
      · rename_i hlen
        obtain ⟨t1, ts2, rfl⟩ : ∃ t1 ts2, ts = t1 :: ts2 := by
          cases ts with
          | nil => exact absurd (by simp) hlen
          | cons a b => exact ⟨a, b, rfl⟩
        rw [idx_cons_one, exc_bind_ok]
        split
        · rename_i dd is3 heq1
          have hnd1 := needDate_extCount2 heq1
          exact ⟨_, rfl, by decide, needDate_some_ok heq1, trivial,
            by rw [hnd1, hsc, hnd, hc]⟩
        · rename_i is3 heq1
          have hnd1 := needDate_extCount2 heq1
          exact ⟨_, rfl, failTail_two_term _ _,
            by rw [countNote_append, hnd1, hsc, hnd, hc, cz_invDateT]⟩

theorem auBranch_spec (rest : List (List Char)) (is0 : List (List Char))
    (hc : countNote noteExtTok is0 = 0) :
    ∃ out, auBranch rest is0 = Except.ok out ∧ Out2Spec out := by
  simp only [auBranch]
  split
  · exact ⟨_, rfl, failTail_two_term _ _,
      by rw [countNote_append, hc, cz_missAuditT]⟩
  · rename_i hlen
    obtain ⟨t0, t1, ts, rfl⟩ := exists_two_of_not_lt hlen
    rw [idx_cons_zero, exc_bind_ok]
    split
    · rename_i dd is1 heq
      have hnd := needDate_extCount2 heq
      exact ⟨_, rfl, failTail_two_term _ _,
        by rw [countNote_append, hnd, hc, cz_missAuditBT]⟩
    · rename_i is1 heq
      have hnd := needDate_extCount2 heq
      have hsc := sanitize_id_any_extCount t0 is1 ("Audit-ID".toList)
      rw [idx_cons_one, exc_bind_ok]
      split
      · rename_i dd is3 heq1
        have hnd1 := needDate_extCount2 heq1
        exact ⟨_, rfl, by decide, needDate_some_ok heq1, trivial,
          by rw [hnd1, hsc, hnd, hc]⟩
      · rename_i is3 heq1
        have hnd1 := needDate_extCount2 heq1
        exact ⟨_, rfl, failTail_two_term _ _,
          by rw [countNote_append, hnd1, hsc, hnd, hc, cz_invDateT]⟩

theorem fdmBranch_spec (rest : List (List Char)) (is0 : List (List Char))
    (hc : countNote noteExtTok is0 = 0) :
    ∃ out, fdmBranch rest is0 = Except.ok out ∧ Out2Spec out := by
  simp only [fdmBranch]
  split
  · rename_i is1 heq
    have hfd := findDate_extCount2 heq
    exact ⟨_, rfl, failTail_two_term _ _,
      by rw [countNote_append, hfd, hc, cz_missTaskT]⟩
  · rename_i i d is1 heq
    have hfd := findDate_extCount2 heq
    split
    · exact ⟨_, rfl, failTail_two_term _ _,
        by rw [countNote_append, hfd, hc, cz_missTaskT]⟩
    · split
      · exact ⟨_, rfl, failTail_two_term _ _,
          by rw [countNote_append, hfd, hc, cz_missTask2T]⟩
      · have hsl := sanitizeIdList_extCount (List.take 2 (List.take i rest)) is1
        exact ⟨_, rfl, by decide, findDate_some_ok rest is0 heq, trivial,
          by rw [hsl, hfd, hc]⟩

theorem embFirstGo_good : ∀ (fuel : Nat) (l : List Char) {ds : List Char},
    embFirstGo fuel l = some ds → ds ≠ [] ∧ ds.length ≤ 2 ∧ ds.all isRevDig = true := by
  intro fuel
  induction fuel with
  | zero => intro l ds h; simp [embFirstGo] at h
  | succ n ih =>
    intro l ds h
    match l with
    | [] => simp [embFirstGo] at h
    | c :: rest =>
      rw [embFirstGo] at h
      split at h
      · split at h
        · rename_i ds2 rem heq
          injection h with h
          subst h
          exact tryEmbRev_good heq
        · exact ih rest h
      · exact ih rest h

theorem embRevFirst_good {s ds : List Char} (h : embRevFirst s = some ds) :
    ds ≠ [] ∧ ds.length ≤ 2 ∧ ds.all isRevDig = true := by
  unfold embRevFirst at h
  split at h
  · rename_i ds2 rem heq
    injection h with h
    subst h
    exact tryEmbRev_good heq
  · exact embFirstGo_good _ _ h

theorem revGood_map_fixO {raw : List Char} (h1 : raw ≠ []) (h2 : raw.length ≤ 2)
    (h3 : raw.all isRevDig = true) : revGood ('R' :: 'e' :: 'v' :: raw.map fixO) :=
  revGood_of_digits (fun hn => h1 (List.map_eq_nil_iff.mp hn))
    (by rw [List.length_map]; exact h2) (map_fixO_digits h3)

theorem idAnyBranch_spec (pfx : List Char) (rest : List (List Char))
    (is0 : List (List Char)) (hp : upper2to4 pfx = true)
    (hc : countNote noteExtTok is0 = 0) :
    ∃ out, idAnyBranch pfx rest is0 = Except.ok out ∧ Out2Spec out := by
  simp only [idAnyBranch]
  split
  · exact ⟨_, rfl, failTail_two_term _ _,
      by rw [countNote_append, hc, cz_missIdDateT (ID_LABEL pfx)]⟩
  · rename_i hlen
    obtain ⟨t0, t1, ts, rfl⟩ := exists_two_of_not_lt hlen
    rw [idx_cons_zero, exc_bind_ok]
    split
    · rename_i dd is1 heq
      have hnd := needDate_extCount2 heq
      exact ⟨_, rfl, failTail_two_term _ _,
        by rw [countNote_append, hnd, hc, cz_missIdBeforeT pfx (ID_LABEL pfx)]⟩
    · rename_i is1 heq
      have hnd := needDate_extCount2 heq
      have hsc := sanitize_id_any_extCount t0 is1 (ID_LABEL pfx)
      rw [idx_cons_one, exc_bind_ok]
      split
      · rename_i dd is3 heq1
        have hnd1 := needDate_extCount2 heq1
        exact ⟨_, rfl, hp, needDate_some_ok heq1, trivial,
          by rw [hnd1, hsc, hnd, hc]⟩
      · rename_i is3 heq1
        have hnd1 := needDate_extCount2 heq1
        exact ⟨_, rfl, failTail_two_term _ _,
          by rw [countNote_append, hnd1, hsc, hnd, hc, cz_invDateT]⟩

theorem tfBranch_spec (rest : List (List Char)) (is0 : List (List Char))
    (hc : countNote noteExtTok is0 = 0) :
    ∃ out, tfBranch rest is0 = Except.ok out ∧ Out2Spec out := by
  simp only [tfBranch]
  split
  · exact ⟨_, rfl, failTail_one_term _, by rw [countNote_append, hc, cz_term]⟩
  · rename_i hne
    obtain ⟨t0, ts, rfl⟩ := exists_cons_of_ne_nil hne
    rw [idx_cons_zero, exc_bind_ok]
    split
    · rename_i dd is1 heq
      have hnd := needDate_extCount2 heq
      exact ⟨_, rfl, by decide, needDate_some_ok heq, trivial,
        by rw [countNote_append, hnd, hc, cz_tfNoForm]⟩
    · rename_i is1 heq
      have hnd := needDate_extCount2 heq
      split
      · rename_i dd is2 heq1
        have hnd1 := needDateOpt_extCount2 heq1
        refine ⟨_, rfl, by decide, needDateOpt_some_ok heq1, ?_, ?_⟩
        · show revGood _
          split
          · rename_i pre raw heqr
            obtain ⟨g1, g2, g3⟩ := revAnySplit_good heqr
            exact revGood_map_fixO g1 g2 g3
          · split
            · rename_i raw heqe
              obtain ⟨g1, g2, g3⟩ := embRevFirst_good heqe
              exact revGood_map_fixO g1 g2 g3
            · exact ⟨['0'], rfl, by simp, by simp, by decide⟩
        · rw [countNote_append, hnd1, hnd, hc, cz_tfReint]
      · rename_i is2 heq1
        have hnd1 := needDateOpt_extCount2 heq1
        exact idAnyBranch_spec ("TF".toList) (t0 :: ts) is2 (by decide)
          (by rw [hnd1, hnd]; exact hc)

theorem csiBranch_spec (pfx : List Char) (rest : List (List Char))
    (is0 : List (List Char)) (hp : upper2to4 pfx = true)
    (hc : countNote noteExtTok is0 = 0) :
    ∃ out, csiBranch pfx rest is0 = Except.ok out ∧ Out2Spec out := by
  simp only [csiBranch]
  split
  · exact ⟨_, rfl, failTail_missCSI _, by rw [countNote_append, hc, cz_missCSI]⟩
  · rename_i hlen
    obtain ⟨t0, t1, ts, rfl⟩ := exists_two_of_not_lt hlen
    rw [idx_cons_zero, exc_bind_ok]
    split
    · rename_i dd is1 heq
      have hnd := needDate_extCount2 heq
      exact ⟨_, rfl, failTail_missCSI _, by rw [countNote_append, hnd, hc, cz_missCSI]⟩
    · rename_i is1 heq
      have hnd := needDate_extCount2 heq
      split
      · exact ⟨_, rfl, failTail_invCSI _, by rw [countNote_append, hnd, hc, cz_invCSI]⟩
      · rename_i csi cnote heqc
        cases cnote with
        | none =>
          rw [idx_cons_one, exc_bind_ok]
          split
          · rename_i dd is3 heq1
            have hnd1 := needDate_extCount2 heq1
            exact ⟨_, rfl, hp, needDate_some_ok heq1, trivial,
              by rw [hnd1, hnd, hc]⟩
          · rename_i is3 heq1
            have hnd1 := needDate_extCount2 heq1
            exact ⟨_, rfl, failTail_invDate _,
              by rw [countNote_append, hnd1, hnd, hc, cz_invDate]⟩
        | some n =>
          have hn1 : countNote noteExtTok (is1 ++ [n]) = countNote noteExtTok is1 := by
            rw [countNote_append]
            rcases normalize_csi_note_cases heqc with rfl | rfl | rfl <;>
              simp [cz_csi6, cz_csi8, cz_csiHy]
          rw [idx_cons_one, exc_bind_ok]
          split
          · rename_i dd is3 heq1
            have hnd1 := needDate_extCount2 heq1
            exact ⟨_, rfl, hp, needDate_some_ok heq1, trivial,
              by rw [hnd1, hn1, hnd, hc]⟩
          · rename_i is3 heq1
            have hnd1 := needDate_extCount2 heq1
            exact ⟨_, rfl, failTail_invDate _,
              by rw [countNote_append, hnd1, hn1, hnd, hc, cz_invDate]⟩

theorem pnspBranch_spec (pfx : List Char) (rest : List (List Char))
    (is0 : List (List Char)) (hp : upper2to4 pfx = true)
    (hc : countNote noteExtTok is0 = 0) :
    ∃ out, pnspBranch pfx rest is0 = Except.ok out ∧ Out2Spec out := by
  simp only [pnspBranch]
  split
  · exact ⟨_, rfl, failTail_one_term _, by rw [countNote_append, hc, cz_term]⟩
  · rename_i hne
    obtain ⟨t0, ts, rfl⟩ := exists_cons_of_ne_nil hne
    rw [idx_cons_zero, exc_bind_ok]
    split
    · rename_i dd is1 heq
      have hnd := needDate_extCount2 heq
      exact ⟨_, rfl, hp, needDate_some_ok heq, trivial, by rw [hnd]; exact hc⟩
    · rename_i is1 heq
      have hnd := needDate_extCount2 heq
      split
      · rename_i csi cnote heqc
        split
        · rename_i dd is2 heq1
          have hnd1 := needDateOpt_extCount2 heq1
          refine ⟨_, rfl, hp, needDateOpt_some_ok heq1, trivial, ?_⟩
          cases cnote with
          | none => rw [hnd1, hnd, hc]
          | some n =>
            rw [countNote_append, hnd1, hnd, hc]
            rcases normalize_csi_note_cases heqc with rfl | rfl | rfl <;>
              simp [cz_csi6, cz_csi8, cz_csiHy]
        · rename_i is2 heq1
          have hnd1 := needDateOpt_extCount2 heq1
          exact ⟨_, rfl, failTail_two_term _ _,
            by rw [countNote_append, hnd1, hnd, hc, cz_invDateT]⟩
      · exact ⟨_, rfl, failTail_one_term _, by rw [countNote_append, hnd, hc, cz_term]⟩

theorem wrBranch_spec (rest : List (List Char)) (is0 : List (List Char))
    (hc : countNote noteExtTok is0 = 0) :
    ∃ out, wrBranch rest is0 = Except.ok out ∧ Out2Spec out := by
  simp only [wrBranch]
  split
  · exact ⟨_, rfl, failTail_one_term _, by rw [countNote_append, hc, cz_term]⟩
  · rename_i hne
    obtain ⟨t0, ts, rfl⟩ := exists_cons_of_ne_nil hne
    rw [idx_cons_zero, exc_bind_ok]
    split
    · rename_i dd is1 heq
      have hnd := needDate_extCount2 heq
      exact ⟨_, rfl, by decide, needDate_some_ok heq, trivial,
        by rw [countNote_append, hnd, hc, cz_wr]⟩
    · rename_i is1 heq
      have hnd := needDate_extCount2 heq
      split
      · rename_i csi cnote heqc
        split
        · rename_i dd is2 heq1
          have hnd1 := needDateOpt_extCount2 heq1
          refine ⟨_, rfl, by decide, needDateOpt_some_ok heq1, trivial, ?_⟩
          cases cnote with
          | none => rw [hnd1, hnd, hc]
          | some n =>
            rw [countNote_append, hnd1, hnd, hc]
            rcases normalize_csi_note_cases heqc with rfl | rfl | rfl <;>
              simp [cz_csi6, cz_csi8, cz_csiHy]
        · rename_i is2 heq1
          have hnd1 := needDateOpt_extCount2 heq1
          exact ⟨_, rfl, failTail_two_term _ _,
            by rw [countNote_append, hnd1, hnd, hc, cz_invDateT]⟩
      · exact ⟨_, rfl, failTail_one_term _, by rw [countNote_append, hnd, hc, cz_term]⟩

theorem reBranch_spec (rest : List (List Char)) (is0 : List (List Char))
    (hc : countNote noteExtTok is0 = 0) :
    ∃ out, reBranch rest is0 = Except.ok out ∧ Out2Spec out := by
  simp only [reBranch]
  split
  · exact ⟨_, rfl, failTail_one_term _, by rw [countNote_append, hc, cz_term]⟩
  · rename_i hne
    obtain ⟨t0, ts, rfl⟩ := exists_cons_of_ne_nil hne
    rw [idx_cons_zero, exc_bind_ok]
    split
    · rename_i dd is1 heq
      have hnd := needDate_extCount2 heq
      exact ⟨_, rfl, by decide, needDate_some_ok heq, trivial, by rw [hnd]; exact hc⟩
    · rename_i is1 heq
      have hnd := needDate_extCount2 heq
      exact ⟨_, rfl, failTail_two_term _ _,
        by rw [countNote_append, hnd, hc, cz_invDateT]⟩

theorem stdBranch_spec (pfx : List Char) (rest : List (List Char))
    (is0 : List (List Char)) (hp : upper2to4 pfx = true)
    (hc : countNote noteExtTok is0 = 0) :
    ∃ out, stdBranch pfx rest is0 = Except.ok out ∧ Out2Spec out := by
  unfold stdBranch
  split
  · rename_i dd is1 heq
    have hnd := needDateOpt_extCount2 heq
    exact ⟨_, rfl, hp, needDateOpt_some_ok heq, trivial, by rw [hnd]; exact hc⟩
  · rename_i is1 heq
    have hnd := needDateOpt_extCount2 heq
    exact ⟨_, rfl, failTail_two_term _ _,
      by rw [countNote_append, hnd, hc, cz_invDateT]⟩

theorem dispatch_spec (pfx : List Char) (rest : List (List Char))
    (is0 : List (List Char)) (hp : upper2to4 pfx = true)
    (hc : countNote noteExtTok is0 = 0) :
    ∃ out, dispatch pfx rest is0 = Except.ok out ∧ Out2Spec out := by
  unfold dispatch
  by_cases h1 : pfx = "COR".toList
  · rw [if_pos h1]
    exact corBranch_spec rest is0 hc
  rw [if_neg h1]
  by_cases h2 : pfx = "QA".toList
  · rw [if_pos h2]
    exact qaBranch_spec rest is0 hc
  rw [if_neg h2]
  by_cases h3 : pfx = "AU".toList
  · rw [if_pos h3]
    exact auBranch_spec rest is0 hc
  rw [if_neg h3]
  by_cases h4 : pfx = "FDM".toList
  · rw [if_pos h4]
    exact fdmBranch_spec rest is0 hc
  rw [if_neg h4]
  by_cases h5 : pfx = "TF".toList
  · rw [if_pos h5]
    exact tfBranch_spec rest is0 hc
  rw [if_neg h5]
  by_cases h6 : memS pfx REQUIRES_ID_ANY = true
  · rw [if_pos h6]
    exact idAnyBranch_spec pfx rest is0 hp hc
  rw [if_neg h6]
  by_cases h7 : memS pfx REQUIRES_CSI = true
  · rw [if_pos h7]
    exact csiBranch_spec pfx rest is0 hp hc
  rw [if_neg h7]
  by_cases h8 : pfx = "PN".toList
  · rw [if_pos h8]
    exact pnspBranch_spec ("PN".toList) rest is0 (by decide) hc
  rw [if_neg h8]
  by_cases h9 : pfx = "SP".toList
  · rw [if_pos h9]
    exact pnspBranch_spec ("SP".toList) rest is0 (by decide) hc
  rw [if_neg h9]
  by_cases h10 : pfx = "WR".toList
  · rw [if_pos h10]
    exact wrBranch_spec rest is0 hc
  rw [if_neg h10]
  by_cases h11 : pfx = "RE".toList
  · rw [if_pos h11]
    exact reBranch_spec rest is0 hc
  rw [if_neg h11]
  by_cases h12 : memS pfx STANDARD_PREFIXES = true
  · rw [if_pos h12]
    exact stdBranch_spec pfx rest is0 hp hc
  rw [if_neg h12]
  exact ⟨_, rfl, failTail_one_term _, by rw [countNote_append, hc, cz_term]⟩

/-! ## Title sanitizer: character class of the output -/

theorem tryExtList_drop : ∀ (alts : List (List Char)) (l r : List Char),
    tryExtList alts l = some r → ∃ k, r = l.drop k := by
  intro alts
  induction alts with
  | nil => intro l r h; simp [tryExtList] at h
  | cons tok toks ih =>
    intro l r h
    rw [tryExtList] at h
    split at h
    · injection h with h
      exact ⟨tok.length, h.symm⟩
    · exact ih l r h

theorem extSubGo_subset : ∀ (fuel : Nat) (l : List Char), ∀ c ∈ extSubGo fuel l, c ∈ l := by
  intro fuel
  induction fuel with
  | zero => intro l c hc; exact hc
  | succ n ih =>
    intro l c hc
    match l with
    | [] => simpa [extSubGo] using hc
    | a :: rest =>
      rw [extSubGo] at hc
      split at hc
      · split at hc
        · rename_i r heq
          obtain ⟨k, rfl⟩ := tryExtList_drop extAlts rest r heq
          exact List.mem_cons_of_mem a (List.drop_subset _ _ (ih _ c hc))
        · rcases List.mem_cons.mp hc with rfl | hc2
          · exact List.mem_cons_self _ _
          · exact List.mem_cons_of_mem a (ih _ c hc2)
      · rcases List.mem_cons.mp hc with rfl | hc2
        · exact List.mem_cons_self _ _
        · exact List.mem_cons_of_mem a (ih _ c hc2)

theorem extSub_subset {s : List Char} : ∀ c ∈ extSub s, c ∈ s := by
  intro c hc
  unfold extSub at hc
  split at hc
  · rename_i r heq
    obtain ⟨k, rfl⟩ := tryExtList_drop extAlts s r heq
    exact List.drop_subset _ _ (extSubGo_subset _ _ c hc)
  · exact extSubGo_subset _ _ c hc

theorem extSuffixCut_subset {s : List Char} : ∀ c ∈ extSuffixCut s, c ∈ s := by
  intro c hc
  unfold extSuffixCut at hc
  split at hc
  · exact List.take_subset _ _ hc
  · exact hc

theorem cdMain_cons (a : Char) (rest : List Char) :
    cdMain (a :: rest) = if isDelimE a then
      (match rest with
       | [] => [a]
       | d :: _ => if isDelimE d then '-' :: cdSkip rest else a :: cdMain rest)
    else a :: cdMain rest := rfl

theorem cdSkip_cons (a : Char) (rest : List Char) :
    cdSkip (a :: rest) = if isDelimE a then cdSkip rest else a :: cdMain rest := rfl

theorem cuMain_cons (a : Char) (rest : List Char) :
    cuMain (a :: rest) = if a = '_' then
      (match rest with
       | [] => [a]
       | d :: _ => if d = '_' then '_' :: cuSkip rest else a :: cuMain rest)
    else a :: cuMain rest := rfl

theorem cuSkip_cons (a : Char) (rest : List Char) :
    cuSkip (a :: rest) = if a = '_' then cuSkip rest else a :: cuMain rest := rfl

theorem cd_subset : ∀ (l : List Char),
    (∀ c ∈ cdMain l, c ∈ l ∨ c = '-') ∧ (∀ c ∈ cdSkip l, c ∈ l ∨ c = '-') := by
  intro l
  induction l with
  | nil => exact ⟨fun c hc => by simp [cdMain] at hc, fun c hc => by simp [cdSkip] at hc⟩
  | cons a rest ih =>
    constructor
    · intro c hc
      rw [cdMain_cons] at hc
      split at hc
      · split at hc
        · rcases List.mem_cons.mp hc with rfl | hc2
          · exact Or.inl (List.mem_cons_self _ _)
          · simp at hc2
        · split at hc
          · rcases List.mem_cons.mp hc with rfl | hc2
            · exact Or.inr rfl
            · rcases ih.2 c hc2 with h | h
              · exact Or.inl (List.mem_cons_of_mem a h)
              · exact Or.inr h
          · rcases List.mem_cons.mp hc with rfl | hc2
            · exact Or.inl (List.mem_cons_self _ _)
            · rcases ih.1 c hc2 with h | h
              · exact Or.inl (List.mem_cons_of_mem a h)
              · exact Or.inr h
      · rcases List.mem_cons.mp hc with rfl | hc2
        · exact Or.inl (List.mem_cons_self _ _)
        · rcases ih.1 c hc2 with h | h
          · exact Or.inl (List.mem_cons_of_mem a h)
          · exact Or.inr h
    · intro c hc
      rw [cdSkip_cons] at hc
      split at hc
      · rcases ih.2 c hc with h | h
        · exact Or.inl (List.mem_cons_of_mem a h)
        · exact Or.inr h
      · rcases List.mem_cons.mp hc with rfl | hc2
        · exact Or.inl (List.mem_cons_self _ _)
        · rcases ih.1 c hc2 with h | h
          · exact Or.inl (List.mem_cons_of_mem a h)
          · exact Or.inr h

theorem trimDelims_subset {l : List Char} : ∀ c ∈ trimDelims l, c ∈ l := by
  intro c hc
  unfold trimDelims at hc
  rw [List.mem_reverse] at hc
  have h1 := (List.dropWhile_sublist (l := (l.dropWhile isDelimE).reverse) isDelimE).subset hc
  rw [List.mem_reverse] at h1
  exact (List.dropWhile_sublist isDelimE).subset h1

theorem strip_spurious_subset (text : List Char) (ns : List (List Char)) :
    ∀ c ∈ (strip_spurious_extensions text ns).1, c ∈ text ∨ c = '-' := by
  intro c hc
  simp only [strip_spurious_extensions] at hc
  have h1 := trimDelims_subset c hc
  rcases (cd_subset _).1 c h1 with h2 | h2
  · exact Or.inl (extSub_subset c (extSuffixCut_subset c h2))
  · exact Or.inr h2

theorem sanitize_title_keep (raw : List Char) (ns : List (List Char)) :
    ∀ c ∈ (sanitize_title raw ns).1, isKeepC c = true := by
  intro c hc
  simp only [sanitize_title] at hc
  rcases strip_spurious_subset _ _ c hc with h1 | rfl
  · exact List.of_mem_filter h1
  · decide

theorem keep_ne_underscore {c : Char} (h : isKeepC c = true) : (c == '_') = false := by
  by_contra hb
  rw [Bool.not_eq_false, beq_iff_eq] at hb
  subst hb
  exact absurd h (by decide)

/-! ## Title sanitizer: note counting -/

theorem countNote_ite_append {P : Prop} [Decidable P] {y : List Char}
    (ns : List (List Char)) (h : ¬ y = noteExtTok) :
    countNote noteExtTok (if P then ns ++ [y] else ns) = countNote noteExtTok ns := by
  split
  · rw [countNote_append, countNote_single h]
    exact Nat.add_zero _
  · rfl

theorem strip_spurious_extCount (text : List Char) (ns : List (List Char)) :
    countNote noteExtTok (strip_spurious_extensions text ns).2
      ≤ countNote noteExtTok ns + 1 := by
  simp only [strip_spurious_extensions]
  split
  · rw [countNote_append, cz_extTok]
  · exact Nat.le_succ _

theorem sanitize_title_extCount (raw : List Char) (ns : List (List Char)) :
    countNote noteExtTok (sanitize_title raw ns).2 ≤ countNote noteExtTok ns + 2 := by
  simp only [sanitize_title]
  rw [countNote_ite_append _ (by decide : ¬ noteNormTitle = noteExtTok)]
  refine le_trans (strip_spurious_extCount _ _) ?_
  rw [countNote_ite_append _ (by decide : ¬ noteSpecialT = noteExtTok),
    countNote_ite_append _ (by decide : ¬ noteUndersT = noteExtTok),
    countNote_ite_append _ (by decide : ¬ noteSpacesT = noteExtTok),
    countNote_ite_append _ (by decide : ¬ noteAmp = noteExtTok)]
  have h0 := strip_spurious_extCount raw ns
  omega

/-! ## Last-character and collapse machinery for the finalizer -/

theorem exists_getLast {l : List Char} (h : l ≠ []) : ∃ c, l.getLast? = some c := by
  cases hr : l.reverse with
  | nil => exact absurd (List.reverse_eq_nil_iff.mp hr) h
  | cons a t => exact ⟨a, by rw [← List.head?_reverse, hr]; rfl⟩

theorem mem_of_getLast {l : List Char} {c : Char} (h : l.getLast? = some c) : c ∈ l := by
  rw [← List.head?_reverse] at h
  cases hr : l.reverse with
  | nil => rw [hr] at h; exact absurd h (by simp)
  | cons a t =>
    rw [hr] at h
    have ha : a = c := by simpa using h
    rw [← ha]
    have hm : a ∈ l.reverse := by rw [hr]; exact List.mem_cons_self _ _
    exact List.mem_reverse.mp hm

theorem getLast_cons_keep {L : List Char} {x c : Char} (h : L.getLast? = some c) :
    (x :: L).getLast? = some c := by
  cases L with
  | nil => exact absurd h (by simp)
  | cons p q => rw [List.getLast?_cons_cons]; exact h

theorem beq_digit_false (x : Char) (hx : isDigitC x = false) {c : Char}
    (hc : isDigitC c = true) : (x == c) = false := by
  by_contra hb
  rw [Bool.not_eq_false, beq_iff_eq] at hb
  subst hb
  simp [hx] at hc

theorem rstrip_id {p : Char → Bool} {l : List Char} {c : Char}
    (h : l.getLast? = some c) (hp : p c = false) :
    (l.reverse.dropWhile p).reverse = l := by
  rw [← List.head?_reverse] at h
  cases hr : l.reverse with
  | nil => rw [hr] at h; exact absurd h (by simp)
  | cons a t =>
    rw [hr] at h
    have ha : a = c := by simpa using h
    rw [List.dropWhile_cons, if_neg (by simp [ha, hp]), ← hr, List.reverse_reverse]

theorem endsWith_single_of_last {s : List Char} {cl x : Char} (h : s.getLast? = some cl)
    (hx : (x == cl) = false) : endsWithL [x] s = false := by
  unfold endsWithL
  rw [← List.head?_reverse] at h
  cases hr : s.reverse with
  | nil => rw [hr] at h; exact absurd h (by simp)
  | cons a t =>
    rw [hr] at h
    have ha : a = cl := by simpa using h
    simp [startsWithL, ha, hx]

theorem postprocess_id {s : List Char} (h1 : endsWithL ['_'] s = false)
    (h2 : endsWithL ['.'] s = false) (ns : List (List Char)) :
    postprocess_before_ext s ns = (s, ns) := by
  simp [postprocess_before_ext, h1, h2]

theorem cu_length : ∀ l : List Char,
    (cuMain l).length ≤ l.length ∧ (cuSkip l).length ≤ l.length := by
  intro l
  induction l with
  | nil => exact ⟨Nat.le_refl _, Nat.le_refl _⟩
  | cons a rest ih =>
    refine ⟨?_, ?_⟩
    · rw [cuMain_cons]
      split
      · split
        · simp
        · split
          · simp only [List.length_cons]
            exact Nat.succ_le_succ ih.2
          · simp only [List.length_cons]
            exact Nat.succ_le_succ ih.1
      · simp only [List.length_cons]
        exact Nat.succ_le_succ ih.1
    · rw [cuSkip_cons]
      split
      · exact Nat.le_trans ih.2 (Nat.le_succ _)
      · simp only [List.length_cons]
        exact Nat.succ_le_succ ih.1

theorem cu_getLast (c : Char) (hcne : c ≠ '_') : ∀ l : List Char,
    (l.getLast? = some c → (cuMain l).getLast? = some c)
    ∧ (l.getLast? = some c → (cuSkip l).getLast? = some c) := by
  intro l
  induction l with
  | nil => exact ⟨fun h => absurd h (by simp), fun h => absurd h (by simp)⟩
  | cons a rest ih =>
    constructor
    · intro h
      rw [cuMain_cons]
      split
      · rename_i ha
        cases rest with
        | nil =>
          have hac : a = c := by simpa using h
          exact absurd (hac.symm.trans ha) hcne
        | cons b rt =>
          have h2 : (b :: rt).getLast? = some c := by
            rw [List.getLast?_cons_cons] at h; exact h
          show (if b = '_' then '_' :: cuSkip (b :: rt)
              else a :: cuMain (b :: rt)).getLast? = some c
          split
          · exact getLast_cons_keep (ih.2 h2)
          · exact getLast_cons_keep (ih.1 h2)
      · cases rest with
        | nil =>
          have hac : a = c := by simpa using h
          show ([a] : List Char).getLast? = some c
          simpa using hac
        | cons b rt =>
          have h2 : (b :: rt).getLast? = some c := by
            rw [List.getLast?_cons_cons] at h; exact h
          exact getLast_cons_keep (ih.1 h2)
    · intro h
      rw [cuSkip_cons]
      split
      · rename_i ha
        cases rest with
        | nil =>
          have hac : a = c := by simpa using h
          exact absurd (hac.symm.trans ha) hcne
        | cons b rt =>
          have h2 : (b :: rt).getLast? = some c := by
            rw [List.getLast?_cons_cons] at h; exact h
          exact ih.2 h2
      · cases rest with
        | nil =>
          have hac : a = c := by simpa using h
          show ([a] : List Char).getLast? = some c
          simpa using hac
        | cons b rt =>
          have h2 : (b :: rt).getLast? = some c := by
            rw [List.getLast?_cons_cons] at h; exact h
          exact getLast_cons_keep (ih.1 h2)

theorem upper_head {p : List Char} (hp : upper2to4 p = true) :
    ∃ c0 ptl, p = c0 :: ptl ∧ c0 ≠ '_' := by
  cases p with
  | nil => exact absurd hp (by decide)
  | cons c0 ptl =>
    refine ⟨c0, ptl, rfl, ?_⟩
    have hup : isUpperC c0 = true := by
      have hall := (Bool.and_eq_true _ _).mp hp |>.2
      exact List.all_eq_true.mp hall c0 (List.mem_cons_self _ _)
    intro he
    rw [he] at hup
    exact absurd hup (by decide)

theorem assemble_none (is : List (List Char)) :
    assemble_decision none is = (some [], is, true) := by
  unfold assemble_decision
  split <;> rfl

theorem except_bind_ok {α β : Type} (a : α) (f : α → Except Unit β) :
    (Except.ok a >>= f) = f a := rfl

/-! ## The finalizer: stem shape, budget and note bounds -/

theorem stem_shape (c0 : Char) (xs rev : List Char)
    (hc0 : c0 ≠ '_') (hrev : revGood rev) :
    ∃ s, ((cuMain ((c0 :: xs) ++ rev)).reverse.dropWhile (fun c => c == '_')).reverse = s
      ∧ s ≠ [] ∧ s.length ≤ ((c0 :: xs) ++ rev).length
      ∧ ∀ ns, postprocess_before_ext s ns = (s, ns) := by
  obtain ⟨ds, hds, hdne, hdlen, hddig⟩ := hrev
  obtain ⟨cl, hcl⟩ := exists_getLast hdne
  have hcld : isDigitC cl = true := allDigits_mem hddig (mem_of_getLast hcl)
  have hrevlast : rev.getLast? = some cl := by
    rw [hds]
    have hsplit : ('R' :: 'e' :: 'v' :: ds) = ['R', 'e', 'v'] ++ ds := rfl
    rw [hsplit, List.getLast?_append_of_ne_nil _ hdne, hcl]
  have hrne : rev ≠ [] := by rw [hds]; simp
  have hjlast : ((c0 :: xs) ++ rev).getLast? = some cl := by
    rw [List.getLast?_append_of_ne_nil _ hrne, hrevlast]
  have hclune : cl ≠ '_' := by
    intro he; rw [he] at hcld; exact absurd hcld (by decide)
  have hculast : (cuMain ((c0 :: xs) ++ rev)).getLast? = some cl :=
    (cu_getLast cl hclune _).1 hjlast
  have hstrip : ((cuMain ((c0 :: xs) ++ rev)).reverse.dropWhile (fun c => c == '_')).reverse
      = cuMain ((c0 :: xs) ++ rev) :=
    rstrip_id hculast (digit_ne_underscore hcld)
  have hcons : cuMain ((c0 :: xs) ++ rev) = c0 :: cuMain (xs ++ rev) := by
    rw [List.cons_append, cuMain_cons, if_neg hc0]
  refine ⟨cuMain ((c0 :: xs) ++ rev), hstrip, ?_, (cu_length _).1, ?_⟩
  · rw [hcons]; simp
  · intro ns
    refine postprocess_id ?_ ?_ ns
    · exact endsWith_single_of_last hculast (beq_digit_false '_' (by decide) hcld)
    · exact endsWith_single_of_last hculast (beq_digit_false '.' (by decide) hcld)

theorem join_tokens_eq (pfx : List Char) (idc : Option (List Char)) (d t rev : List Char) :
    ∃ mid, join_tokens pfx idc d t rev
        = ((cuMain ((pfx ++ mid) ++ rev)).reverse.dropWhile (fun c => c == '_')).reverse
      ∧ mid.length = 1 + idPartLen idc + d.length + 1 + t.length + 1 := by
  rcases hopt : optTruthy idc with _ | i0
  · refine ⟨'_' :: (d ++ '_' :: (t ++ ['_'])), ?_, ?_⟩
    · simp [join_tokens, hopt, joinWith, List.append_assoc]
    · simp only [idPartLen, hopt, List.length_cons, List.length_append, List.length_nil]
      omega
  · refine ⟨'_' :: (i0 ++ '_' :: (d ++ '_' :: (t ++ ['_']))), ?_, ?_⟩
    · simp [join_tokens, hopt, joinWith, List.append_assoc]
    · simp only [idPartLen, hopt, List.length_cons, List.length_append, List.length_nil]
      omega

theorem enforce_cases (pfx : List Char) (idc : Option (List Char)) (d t rev : List Char)
    (ns : List (List Char)) :
    (enforce_stem_limit pfx idc d t rev ns = (t, ns)
      ∧ pfx.length + 1 + idPartLen idc + d.length + 1 + t.length + 1 + rev.length
          ≤ MAX_CHARS_TOTAL)
    ∨ (enforce_stem_limit pfx idc d t rev ns).2 = ns ++ [noteTrunc] := by
  rcases hopt : optTruthy idc with _ | i0
  · simp only [enforce_stem_limit, hopt]
    split
    · right; rfl
    · rename_i hle
      left
      refine ⟨rfl, ?_⟩
      simp only [idPartLen, hopt]
      simp only [List.length_append, List.length_cons, List.length_nil,
        List.nil_append] at hle ⊢
      omega
  · simp only [enforce_stem_limit, hopt]
    split
    · right; rfl
    · rename_i hle
      left
      refine ⟨rfl, ?_⟩
      simp only [idPartLen, hopt]
      simp only [List.length_append, List.length_cons, List.length_nil] at hle ⊢
      omega

theorem finalize_tail (pf : List Char) (idc : Option (List Char)) (d t rev : List Char)
    (nsx : List (List Char)) (c0 : Char) (ptl : List Char)
    (hpf : pf = c0 :: ptl) (hc0 : c0 ≠ '_') (hrev : revGood rev) :
    ∃ stem ns2,
      postprocess_before_ext
          (join_tokens pf idc d (enforce_stem_limit pf idc d t rev nsx).1 rev)
          (if underscores_ok
                (join_tokens pf idc d (enforce_stem_limit pf idc d t rev nsx).1 rev)
                (optTruthy idc).isSome
            then (enforce_stem_limit pf idc d t rev nsx).2
            else (enforce_stem_limit pf idc d t rev nsx).2 ++ [noteUCount]) = (stem, ns2)
      ∧ stem ≠ []
      ∧ (countU stem = 3 ∨ countU stem = 4 ∨ memNote noteUCount ns2 = true)
      ∧ (stem.length ≤ MAX_CHARS_TOTAL ∨ memNote noteTrunc ns2 = true)
      ∧ countNote noteExtTok ns2 ≤ countNote noteExtTok nsx := by
  subst hpf
  obtain ⟨mid, hj, hjlen⟩ :=
    join_tokens_eq (c0 :: ptl) idc d
      (enforce_stem_limit (c0 :: ptl) idc d t rev nsx).1 rev
  rw [List.cons_append] at hj
  obtain ⟨s, hs, hsne, hslen, hpost⟩ := stem_shape c0 (ptl ++ mid) rev hc0 hrev
  have hjs := hj.trans hs
  rw [hjs]
  have hEfact := enforce_cases (c0 :: ptl) idc d t rev nsx
  have f1 : s.length ≤ MAX_CHARS_TOTAL
      ∨ memNote noteTrunc (enforce_stem_limit (c0 :: ptl) idc d t rev nsx).2 = true := by
    rcases hEfact with ⟨hEq, hle⟩ | hEtr
    · left
      rw [hEq] at hjlen
      simp only [] at hjlen
      simp only [List.length_append, List.length_cons] at hslen
      simp only [List.length_cons] at hle
      omega
    · right
      rw [hEtr]
      exact memNote_append_right _ _ _ (by simp [memNote])
  have f2 : countNote noteExtTok (enforce_stem_limit (c0 :: ptl) idc d t rev nsx).2
      ≤ countNote noteExtTok nsx := by
    rcases hEfact with ⟨hEq, -⟩ | hEtr
    · exact le_of_eq (by rw [hEq])
    · rw [hEtr, countNote_append, countNote_single (by decide : ¬ noteTrunc = noteExtTok)]
      omega
  by_cases hu : underscores_ok s (optTruthy idc).isSome = true
  · refine ⟨s, (enforce_stem_limit (c0 :: ptl) idc d t rev nsx).2, ?_, hsne, ?_, f1, f2⟩
    · rw [if_pos hu]
      exact hpost _
    · have hcu : countU s = (if (optTruthy idc).isSome then 4 else 3) := by
        have hb := hu
        simp only [underscores_ok] at hb
        exact beq_iff_eq.mp hb
      by_cases hid : (optTruthy idc).isSome = true
      · rw [if_pos hid] at hcu
        exact Or.inr (Or.inl hcu)
      · rw [if_neg hid] at hcu
        exact Or.inl hcu
  · refine ⟨s, (enforce_stem_limit (c0 :: ptl) idc d t rev nsx).2 ++ [noteUCount],
      ?_, hsne, ?_, ?_, ?_⟩
    · rw [if_neg hu]
      exact hpost _
    · exact Or.inr (Or.inr (memNote_append_right _ _ _ (by simp [memNote])))
    · rcases f1 with hl | hm
      · exact Or.inl hl
      · exact Or.inr (memNote_append_left _ _ _ hm)
    · rw [countNote_append, countNote_single (by decide : ¬ noteUCount = noteExtTok)]
      omega

theorem finalizeF_spec (pf : List Char) (i : Option (List Char)) (d traw : List Char)
    (h : Option (List Char)) (ns : List (List Char)) (ext orig : List Char)
    (hp : upper2to4 pf = true) (hh : hrevOk h)
    (hc : countNote noteExtTok ns = 0) :
    ∃ stem ns2 ch, finalizeF pf i d traw h ns ext orig = (some (stem ++ ext), ns2, ch)
      ∧ stem ≠ []
      ∧ (countU stem = 3 ∨ countU stem = 4 ∨ memNote noteUCount ns2 = true)
      ∧ (stem.length ≤ MAX_CHARS_TOTAL ∨ memNote noteTrunc ns2 = true)
      ∧ countNote noteExtTok ns2 ≤ 2 := by
  obtain ⟨c0, ptl, hpf, hc0⟩ := upper_head hp
  have hsc : countNote noteExtTok
      (sanitize_title (extract_rev traw ns).1 (extract_rev traw ns).2.2).2 ≤ 2 := by
    have h1 := sanitize_title_extCount (extract_rev traw ns).1 (extract_rev traw ns).2.2
    have h2 := extract_rev_extCount traw ns
    omega
  cases h with
  | some hr =>
    cases i with
    | none =>
      obtain ⟨stem, ns2, heq, hne, hcu, hlen, hcnt⟩ :=
        finalize_tail pf none d
          (sanitize_title (extract_rev traw ns).1 (extract_rev traw ns).2.2).1 hr
          (sanitize_title (extract_rev traw ns).1 (extract_rev traw ns).2.2).2
          c0 ptl hpf hc0 hh
      refine ⟨stem, ns2, decide (stem ++ ext ≠ orig), ?_, hne, hcu, hlen,
        le_trans hcnt hsc⟩
      simp only [finalizeF]
      rw [heq]
    | some l =>
      obtain ⟨stem, ns2, heq, hne, hcu, hlen, hcnt⟩ :=
        finalize_tail pf (if l = [] then none else some (l.filter (fun c => c != '_'))) d
          (sanitize_title (extract_rev traw ns).1 (extract_rev traw ns).2.2).1 hr
          (sanitize_title (extract_rev traw ns).1 (extract_rev traw ns).2.2).2
          c0 ptl hpf hc0 hh
      refine ⟨stem, ns2, decide (stem ++ ext ≠ orig), ?_, hne, hcu, hlen,
        le_trans hcnt hsc⟩
      simp only [finalizeF]
      rw [heq]
  | none =>
    cases i with
    | none =>
      obtain ⟨stem, ns2, heq, hne, hcu, hlen, hcnt⟩ :=
        finalize_tail pf none d
          (sanitize_title (extract_rev traw ns).1 (extract_rev traw ns).2.2).1
          (extract_rev traw ns).2.1
          (sanitize_title (extract_rev traw ns).1 (extract_rev traw ns).2.2).2
          c0 ptl hpf hc0 (extract_rev_revGood traw ns)
      refine ⟨stem, ns2, decide (stem ++ ext ≠ orig), ?_, hne, hcu, hlen,
        le_trans hcnt hsc⟩
      simp only [finalizeF]
      rw [heq]
    | some l =>
      obtain ⟨stem, ns2, heq, hne, hcu, hlen, hcnt⟩ :=
        finalize_tail pf (if l = [] then none else some (l.filter (fun c => c != '_'))) d
          (sanitize_title (extract_rev traw ns).1 (extract_rev traw ns).2.2).1
          (extract_rev traw ns).2.1
          (sanitize_title (extract_rev traw ns).1 (extract_rev traw ns).2.2).2
          c0 ptl hpf hc0 (extract_rev_revGood traw ns)
      refine ⟨stem, ns2, decide (stem ++ ext ≠ orig), ?_, hne, hcu, hlen,
        le_trans hcnt hsc⟩
      simp only [finalizeF]
      rw [heq]

/-! ## The audit pipeline: master specification -/

theorem auditL_spec (input : List Char) :
    ∃ v, auditL input = Except.ok v
      ∧ countNote noteExtTok v.2.1 ≤ 2
      ∧ (v.1 = none
         ∨ (v.1 = some [] ∧ (pyStrip input = [] ∨ failTail v.2.1))
         ∨ ∃ stem, v.1 = some (stem ++ extOf input) ∧ stem ≠ []
             ∧ (countU stem = 3 ∨ countU stem = 4 ∨ memNote noteUCount v.2.1 = true)
             ∧ (stem.length ≤ MAX_CHARS_TOTAL ∨ memNote noteTrunc v.2.1 = true)) := by
  by_cases h0 : pyStrip input = []
  · refine ⟨(some [], [strEmptyVal], true), ?_, by decide, Or.inr (Or.inl ⟨rfl, Or.inl h0⟩)⟩
    simp only [auditL]
    rw [if_pos h0]
  · by_cases hig : ignoreHit (pyStrip input) = true
    · refine ⟨(none, [], false), ?_, by decide, Or.inl rfl⟩
      simp only [auditL]
      rw [if_neg h0, if_pos hig]
    · simp only [auditL]
      rw [if_neg h0, if_neg hig]
      rcases hP : (if hasDblU (splitStemExt (pyStrip input)).1 then
            (cuMain (splitStemExt (pyStrip input)).1,
              (if spaceBeforeExt input then [noteSpaceExt] else []) ++ [noteDblU])
          else ((splitStemExt (pyStrip input)).1,
              (if spaceBeforeExt input then [noteSpaceExt] else []))) with ⟨stem1, is1⟩
      simp only []
      have hi1c : countNote noteExtTok is1 = 0 := by
        by_cases hdb : hasDblU (splitStemExt (pyStrip input)).1 = true
        · rw [if_pos hdb] at hP
          have h2 := congrArg Prod.snd hP
          simp only [] at h2
          rw [← h2]
          by_cases hsp : spaceBeforeExt input = true
          · rw [if_pos hsp]; decide
          · rw [if_neg hsp]; decide
        · rw [if_neg hdb] at hP
          have h2 := congrArg Prod.snd hP
          simp only [] at h2
          rw [← h2]
          by_cases hsp : spaceBeforeExt input = true
          · rw [if_pos hsp]; decide
          · rw [if_neg hsp]; decide
      rcases htk : (splitOnChar '_' stem1).filter (fun t => !t.isEmpty)
        with _ | ⟨pfx, _ | ⟨t2, rest2⟩⟩
      · refine ⟨(some [], is1 ++ [noteTerm], true), ?_, ?_,
          Or.inr (Or.inl ⟨rfl, Or.inr (Or.inl (getLast_append_one is1 noteTerm))⟩)⟩
        · rw [htk, assemble_none]
        · rw [countNote_append, hi1c, cz_term]
          decide
      · refine ⟨(some [], is1 ++ [noteTerm], true), ?_, ?_,
          Or.inr (Or.inl ⟨rfl, Or.inr (Or.inl (getLast_append_one is1 noteTerm))⟩)⟩
        · rw [htk, assemble_none]
        · rw [countNote_append, hi1c, cz_term]
          decide
      · rw [htk]
        simp only []
        by_cases hup : upper2to4 pfx = true
        · rw [if_pos hup]
          obtain ⟨out, hout, hospec⟩ := dispatch_spec pfx (t2 :: rest2) is1 hup hi1c
          rw [hout, except_bind_ok]
          cases out with
          | fail ns =>
            obtain ⟨hft, hcnt⟩ := hospec
            refine ⟨(some [], ns, true), ?_, ?_, Or.inr (Or.inl ⟨rfl, Or.inr hft⟩)⟩
            · simp only []
              rw [assemble_none]
              rfl
            · simp only []
              omega
          | fin pf i dt traw h ns =>
            obtain ⟨hpf2, hdok, hhrev, hcnt⟩ := hospec
            obtain ⟨stem, ns2, ch, hfin, hne, hcu, hlen, hcnt2⟩ :=
              finalizeF_spec pf i dt traw h ns (splitStemExt (pyStrip input)).2
                (pyStrip input) hpf2 hhrev hcnt
            refine ⟨(some (stem ++ (splitStemExt (pyStrip input)).2), ns2, ch), ?_, hcnt2,
              Or.inr (Or.inr ⟨stem, rfl, hne, hcu, hlen⟩)⟩
            simp only []
            rw [hfin]
            rfl
        · rw [if_neg hup]
          refine ⟨(some [], is1 ++ [noteTerm], true), ?_, ?_,
            Or.inr (Or.inl ⟨rfl, Or.inr (Or.inl (getLast_append_one is1 noteTerm))⟩)⟩
          · rw [assemble_none]
          · rw [countNote_append, hi1c, cz_term]
            decide

/-- C2 (amended): whenever the audit returns a non-empty suggestion, the
suggested stem (the suggestion minus the re-attached extension) is at most 64
characters long, or else the truncation note is present in the notes. -/
theorem audit_stem_length_bound (s : String) (sugg : List Char)
    (notes : List (List Char)) (ch : Bool)
    (h : audit_filename s = Except.ok (some sugg, notes, ch)) (hne : sugg ≠ []) :
    ∃ stem, sugg = stem ++ extOf s.toList
      ∧ (stem.length ≤ MAX_CHARS_TOTAL ∨ memNote noteTrunc notes = true) := by
  obtain ⟨v, hv, -, hcase⟩ := auditL_spec s.toList
  unfold audit_filename at h
  rw [h] at hv
  injection hv with hv2
  subst hv2
  simp only [] at hcase
  rcases hcase with h1 | ⟨h2, -⟩ | ⟨stem, hst, -, -, hlen⟩
  · exact absurd h1 (by simp)
  · injection h2 with h3
    exact absurd h3 hne
  · injection hst with h4
    exact ⟨stem, h4, hlen⟩

/-- Witness for C2's amended theorem: the 60-character identifier input keeps
a 78-character stem, and indeed the truncation note is present. -/
theorem audit_stem_length_bound_witness :
    ∃ stem,
      ("SOP_XXXXXXXXXXXXXXXXXXXXXXXXXXXXXXXXXXXXXXXXXXXXXXXXXXXXXXXXXXXX_20240101_Rev0".toList
          ++ ".pdf".toList)
        = stem ++ extOf
            "SOP_XXXXXXXXXXXXXXXXXXXXXXXXXXXXXXXXXXXXXXXXXXXXXXXXXXXXXXXXXXXX_20240101_T.pdf".toList
      ∧ (stem.length ≤ MAX_CHARS_TOTAL
          ∨ memNote noteTrunc [noteRev0, noteTrunc, noteUCount] = true) :=
  audit_stem_length_bound
    "SOP_XXXXXXXXXXXXXXXXXXXXXXXXXXXXXXXXXXXXXXXXXXXXXXXXXXXXXXXXXXXX_20240101_T.pdf"
    ("SOP_XXXXXXXXXXXXXXXXXXXXXXXXXXXXXXXXXXXXXXXXXXXXXXXXXXXXXXXXXXXX_20240101_Rev0".toList
      ++ ".pdf".toList)
    [noteRev0, noteTrunc, noteUCount] true rfl (by decide)

/-- C3 (amended): every NonCompliant decision on non-blank input (empty
suggestion) carries notes ending with the fixed terminal message or with one
of the three CSI-family failure messages. -/
theorem audit_noncompliant_notes_tail (s : String) (notes : List (List Char))
    (ch : Bool) (hnb : pyStrip s.toList ≠ [])
    (h : audit_filename s = Except.ok (some [], notes, ch)) :
    failTail notes := by
  obtain ⟨v, hv, -, hcase⟩ := auditL_spec s.toList
  unfold audit_filename at h
  rw [h] at hv
  injection hv with hv2
  subst hv2
  simp only [] at hcase
  rcases hcase with h1 | ⟨-, h2⟩ | ⟨stem, hst, hsne, -, -⟩
  · exact absurd h1 (by simp)
  · rcases h2 with h3 | h3
    · exact absurd h3 hnb
    · exact h3
  · injection hst with h4
    exact absurd (List.append_eq_nil.mp h4.symm).1 hsne

/-- Witness for C3's amended theorem at the CSI failure counterexample. -/
theorem audit_noncompliant_notes_tail_witness : failTail [noteMissCSI] :=
  audit_noncompliant_notes_tail "CA_20240101_Title.pdf" [noteMissCSI] true
    (by decide) rfl

/-- C5 (amended): whenever the audit returns a non-empty suggestion, its stem
has exactly 3 or 4 underscores, or else the `Unexpected underscore count`
diagnostic note is present in the notes. -/
theorem audit_underscore_count_bound (s : String) (sugg : List Char)
    (notes : List (List Char)) (ch : Bool)
    (h : audit_filename s = Except.ok (some sugg, notes, ch)) (hne : sugg ≠ []) :
    ∃ stem, sugg = stem ++ extOf s.toList
      ∧ (countU stem = 3 ∨ countU stem = 4 ∨ memNote noteUCount notes = true) := by
  obtain ⟨v, hv, -, hcase⟩ := auditL_spec s.toList
  unfold audit_filename at h
  rw [h] at hv
  injection hv with hv2
  subst hv2
  simp only [] at hcase
  rcases hcase with h1 | ⟨h2, -⟩ | ⟨stem, hst, -, hcu, -⟩
  · exact absurd h1 (by simp)
  · injection h2 with h3
    exact absurd h3 hne
  · injection hst with h4
    exact ⟨stem, h4, hcu⟩

/-- Witness for C5's amended theorem at the empty-title counterexample, where
the third disjunct (the diagnostic note) is the one that holds. -/
theorem audit_underscore_count_bound_witness :
    ∃ stem, ("LG_20240101_Rev0".toList ++ ".pdf".toList)
        = stem ++ extOf "LG_20240101.pdf".toList
      ∧ (countU stem = 3 ∨ countU stem = 4
          ∨ memNote noteUCount [noteRev0, noteUCount] = true) :=
  audit_underscore_count_bound "LG_20240101.pdf"
    ("LG_20240101_Rev0".toList ++ ".pdf".toList) [noteRev0, noteUCount] true rfl
    (by decide)

/-- C8 (amended): the `Removed extra extension token from title.` note appears
at most TWICE in the notes returned by a single audit, for every input and
every returned decision. The two possible occurrences are the two
extension-stripping passes of the title sanitizer (start and end of
`sanitize_title`), which are not de-duplicated; no other site of the audit
emits this note, so across the dispatcher's failure paths, the terminal
paths, and the finalizer, the count never exceeds two — and two is attained
(see the counterexample and the witness). -/
theorem audit_ext_note_at_most_twice (s : String) (sugg : Option (List Char))
    (notes : List (List Char)) (ch : Bool)
    (h : audit_filename s = Except.ok (sugg, notes, ch)) :
    countNote noteExtTok notes ≤ 2 := by
  obtain ⟨v, hv, hcnt, -⟩ := auditL_spec s.toList
  unfold audit_filename at h
  rw [h] at hv
  injection hv with hv2
  subst hv2
  exact hcnt

/-- Witness for C8's amended theorem at the input that attains the bound:
the returned notes carry the extension-token note exactly twice, and the
theorem's bound holds there. -/
theorem audit_ext_note_at_most_twice_witness :
    countNote noteExtTok [noteRev0, noteExtTok, noteExtTok, noteNormTitle] = 2
  ∧ countNote noteExtTok [noteRev0, noteExtTok, noteExtTok, noteNormTitle] ≤ 2 :=
  ⟨by decide,
   audit_ext_note_at_most_twice "COR_20240101_Mapdfpdfpdf.pdf"
    (some "COR_20240101_Mapdf_Rev0.pdf".toList)
    [noteRev0, noteExtTok, noteExtTok, noteNormTitle] true rfl⟩

/-! ## Canonical-input lemmas: character classes -/

theorem alpha_not_space {c : Char} (h : isAlphaC c = true) : isSpaceC c = false := by
  by_contra hh
  rw [Bool.not_eq_false] at hh
  rcases space_cases hh with rfl | rfl | rfl | rfl | rfl | rfl <;> exact absurd h (by decide)

theorem alnum_not_space {c : Char} (h : isAlnumC c = true) : isSpaceC c = false := by
  by_contra hh
  rw [Bool.not_eq_false] at hh
  rcases space_cases hh with rfl | rfl | rfl | rfl | rfl | rfl <;> exact absurd h (by decide)

theorem upper_alpha {c : Char} (h : isUpperC c = true) : isAlphaC c = true := by
  simp [isAlphaC, isUpperC] at h ⊢
  exact Or.inl h

theorem digit_alnum {c : Char} (h : isDigitC c = true) : isAlnumC c = true := by
  simp [isAlnumC]
  exact Or.inr h

theorem alpha_alnum {c : Char} (h : isAlphaC c = true) : isAlnumC c = true := by
  simp [isAlnumC]
  exact Or.inl h

theorem beq_false_of_pred (p : Char → Bool) {c x : Char} (hc : p c = true)
    (hx : p x = false) : (c == x) = false := by
  by_contra hb
  rw [Bool.not_eq_false, beq_iff_eq] at hb
  subst hb
  rw [hc] at hx
  exact absurd hx (by decide)

theorem bne_true_of_beq_false {c x : Char} (h : (c == x) = false) : (c != x) = true := by
  simp [bne, h]

theorem trim_cases {c : Char} (h : isTrimSet c = true) :
    c = '_' ∨ c = '-' ∨ c = ' ' ∨ c = '.' := by
  simp only [isTrimSet, Bool.or_eq_true, beq_iff_eq] at h
  tauto

theorem alpha_not_trimset {c : Char} (h : isAlphaC c = true) : isTrimSet c = false := by
  by_contra hh
  rw [Bool.not_eq_false] at hh
  rcases trim_cases hh with rfl | rfl | rfl | rfl <;> exact absurd h (by decide)

theorem digit_not_trimset {c : Char} (h : isDigitC c = true) : isTrimSet c = false := by
  by_contra hh
  rw [Bool.not_eq_false] at hh
  rcases trim_cases hh with rfl | rfl | rfl | rfl <;> exact absurd h (by decide)

theorem not_contains {l : List Char} {x : Char} (h : x ∉ l) : l.contains x = false := by
  by_contra hb
  rw [Bool.not_eq_false] at hb
  exact h (List.mem_of_elem_eq_true hb)

theorem filter_id_of {p : Char → Bool} : ∀ (l : List Char),
    (∀ c ∈ l, p c = true) → l.filter p = l := by
  intro l
  induction l with
  | nil => intro _; rfl
  | cons a rest ih =>
    intro h
    rw [List.filter_cons]
    rw [if_pos (h a (List.mem_cons_self _ _))]
    rw [ih (fun c hc => h c (List.mem_cons_of_mem _ hc))]

theorem isEmpty_false_of_ne {l : List Char} (h : l ≠ []) : l.isEmpty = false := by
  cases l with
  | nil => exact absurd rfl h
  | cons a t => rfl

theorem head_append_ne {a b : List Char} (ha : a ≠ []) : (a ++ b).head? = a.head? := by
  cases a with
  | nil => exact absurd rfl ha
  | cons x xs => rfl

/-! ## Canonical-input lemmas: extension-scanner identities -/

theorem startsWithL_self : ∀ l : List Char, startsWithL l l = true := by
  intro l
  induction l with
  | nil => rfl
  | cons x xs ih => simp [startsWithL, ih]

theorem ciStartsWith_len : ∀ (tok l : List Char), ciStartsWith tok l = true →
    tok.length ≤ l.length := by
  intro tok
  induction tok with
  | nil => intro l _; simp
  | cons p ps ih =>
    intro l h
    cases l with
    | nil => exact absurd h (by simp [ciStartsWith])
    | cons c cs =>
      have h2 := (Bool.and_eq_true _ _).mp h
      simpa using Nat.succ_le_succ (ih cs h2.2)

theorem ciStartsWith_eq : ∀ (tok l : List Char), ciStartsWith tok l = true →
    l.length ≤ tok.length → l.map Char.toLower = tok := by
  intro tok
  induction tok with
  | nil =>
    intro l _ hlen
    have : l = [] := List.eq_nil_of_length_eq_zero (Nat.le_zero.mp hlen)
    simp [this]
  | cons p ps ih =>
    intro l h hlen
    cases l with
    | nil => exact absurd h (by simp [ciStartsWith])
    | cons c cs =>
      have h2 := (Bool.and_eq_true _ _).mp h
      have hp : p = Char.toLower c := beq_iff_eq.mp h2.1
      simp only [List.map_cons, hp]
      have hlen2 : cs.length ≤ ps.length := by simpa using hlen
      rw [ih cs h2.2 hlen2]

theorem extLook_nil {k : Nat} {T : List Char} (hdel : ∀ c ∈ T, isDelimE c = false)
    (h : extLook (T.drop k) = true) : T.drop k = [] := by
  cases hd : T.drop k with
  | nil => rfl
  | cons c r =>
    rw [hd] at h
    have hm : c ∈ T := List.drop_subset k T (hd ▸ List.mem_cons_self c r)
    have h2 : isDelimE c = true := h
    rw [hdel c hm] at h2
    exact absurd h2 (by decide)

theorem tryExtList_none_of {T : List Char} : ∀ (alts : List (List Char)),
    (∀ tok ∈ alts, endsWithL tok (T.map Char.toLower) = false) →
    (∀ c ∈ T, isDelimE c = false) → tryExtList alts T = none := by
  intro alts
  induction alts with
  | nil => intro _ _; rfl
  | cons tok toks ih =>
    intro hts hdel
    rw [tryExtList]
    rw [if_neg ?_]
    · exact ih (fun t2 hm => hts t2 (List.mem_cons_of_mem _ hm)) hdel
    · intro hc
      obtain ⟨h1, h2⟩ := (Bool.and_eq_true _ _).mp hc
      have hdrop : T.drop tok.length = [] := extLook_nil hdel h2
      have hlen2 : T.length ≤ tok.length := by
        have := List.drop_eq_nil_iff_le.mp hdrop
        exact this
      have heq := ciStartsWith_eq tok T h1 hlen2
      have hend : endsWithL tok (T.map Char.toLower) = true := by
        rw [heq]
        unfold endsWithL
        exact startsWithL_self _
      rw [hts tok (List.mem_cons_self _ _)] at hend
      exact absurd hend (by decide)

theorem extSubGo_id : ∀ (fuel : Nat) (l : List Char), l.length < fuel →
    (∀ c ∈ l, isDelimE c = false) → extSubGo fuel l = l := by
  intro fuel
  induction fuel with
  | zero => intro l h _; exact absurd h (by simp)
  | succ f ih =>
    intro l hlen hdel
    cases l with
    | nil => rfl
    | cons c rest =>
      show (if isDelimE c then _ else c :: extSubGo f rest) = c :: rest
      rw [if_neg (by rw [hdel c (List.mem_cons_self _ _)]; exact Bool.false_ne_true)]
      rw [ih rest (by simpa using Nat.lt_of_succ_lt_succ hlen)
        (fun x hx => hdel x (List.mem_cons_of_mem _ hx))]

theorem extSub_id {T : List Char}
    (hts : ∀ tok ∈ extAlts, endsWithL tok (T.map Char.toLower) = false)
    (hdel : ∀ c ∈ T, isDelimE c = false) : extSub T = T := by
  unfold extSub tryExtTok
  rw [tryExtList_none_of extAlts hts hdel]
  exact extSubGo_id _ _ (Nat.lt_succ_self _) hdel

theorem extSuffixCut_id {T : List Char}
    (hts : ∀ tok ∈ extAlts, endsWithL tok (T.map Char.toLower) = false) :
    extSuffixCut T = T := by
  unfold extSuffixCut
  rw [List.find?_eq_none.mpr (fun tok hm => by rw [hts tok hm]; exact Bool.false_ne_true)]

theorem cdMain_id : ∀ (l : List Char), (∀ c ∈ l, isDelimE c = false) → cdMain l = l := by
  intro l
  induction l with
  | nil => intro _; rfl
  | cons a rest ih =>
    intro h
    rw [cdMain_cons]
    rw [if_neg (by rw [h a (List.mem_cons_self _ _)]; exact Bool.false_ne_true)]
    rw [ih (fun c hc => h c (List.mem_cons_of_mem _ hc))]

theorem trimDelims_id {l : List Char} (h : ∀ c ∈ l, isDelimE c = false) :
    trimDelims l = l := by
  unfold trimDelims
  rw [dropWhile_eq_self_of _ _ h,
    dropWhile_eq_self_of _ _ (fun c hc => h c (List.mem_reverse.mp hc)),
    List.reverse_reverse]

theorem strip_spurious_id {T : List Char}
    (hts : ∀ tok ∈ extAlts, endsWithL tok (T.map Char.toLower) = false)
    (hdel : ∀ c ∈ T, isDelimE c = false) :
    ∀ ns, strip_spurious_extensions T ns = (T, ns) := by
  intro ns
  simp [strip_spurious_extensions, extSub_id hts hdel, extSuffixCut_id hts,
    cdMain_id T hdel, trimDelims_id hdel]

theorem sanitize_title_id {T : List Char}
    (hts : ∀ tok ∈ extAlts, endsWithL tok (T.map Char.toLower) = false)
    (halpha : ∀ c ∈ T, isAlphaC c = true) :
    ∀ ns, sanitize_title T ns = (T, ns) := by
  have hdel : ∀ c ∈ T, isDelimE c = false := by
    intro c hc
    have h1 : (c == '.') = false := beq_false_of_pred isAlphaC (halpha c hc) (by decide)
    have h2 : (c == '_') = false := beq_false_of_pred isAlphaC (halpha c hc) (by decide)
    have h3 : (c == '-') = false := beq_false_of_pred isAlphaC (halpha c hc) (by decide)
    simp [isDelimE, h1, h2, h3]
  have hamp : '&' ∉ T := fun hm => absurd (halpha _ hm) (by decide)
  have hspc : ' ' ∉ T := fun hm => absurd (halpha _ hm) (by decide)
  have hund : '_' ∉ T := fun hm => absurd (halpha _ hm) (by decide)
  have hfil : T.filter isKeepC = T :=
    filter_id_of T (fun c hc => by
      simp [isKeepC]
      exact Or.inl (alpha_alnum (halpha c hc)))
  intro ns
  simp [sanitize_title, strip_spurious_id hts hdel, hamp, hspc, hund, hfil]

/-! ## Canonical-input lemmas: revision split, collapse identities, counting -/

theorem takeWhile_append_cons {p : Char → Bool} : ∀ {a : List Char} {x : Char}
    (b : List Char), (∀ c ∈ a, p c = true) → p x = false →
    (a ++ x :: b).takeWhile p = a := by
  intro a
  induction a with
  | nil =>
    intro x b _ hx
    simp [List.takeWhile_cons, hx]
  | cons y ys ih =>
    intro x b ha hx
    rw [List.cons_append, List.takeWhile_cons, ha y (List.mem_cons_self _ _)]
    simp only [if_true]
    rw [ih b (fun c hc => ha c (List.mem_cons_of_mem _ hc)) hx]

theorem rstripWS_id {l : List Char} (h : ∀ c ∈ l, isSpaceC c = false) :
    rstripWS l = l := by
  unfold rstripWS
  rw [dropWhile_eq_self_of _ _ (fun c hc => h c (List.mem_reverse.mp hc)),
    List.reverse_reverse]

theorem canonRev_canonical {T N : List Char} (hNne : N ≠ []) (hN2 : N.length ≤ 2)
    (hNdig : allDigits N = true) :
    canonRevSplit (T ++ '_' :: ('R' :: 'e' :: 'v' :: N)) = some (T, N) := by
  have hrev : (T ++ '_' :: ('R' :: 'e' :: 'v' :: N)).reverse
      = N.reverse ++ 'v' :: 'e' :: 'R' :: '_' :: T.reverse := by
    simp
  simp only [canonRevSplit]
  rw [hrev]
  rw [takeWhile_append_cons _ (fun c hc => allDigits_mem hNdig (List.mem_reverse.mp hc))
    (by decide)]
  have hlp : 0 < N.length := List.length_pos.mpr hNne
  rw [if_pos ?_]
  · rw [List.drop_left]
    simp
  · rw [List.length_reverse]
    have h12 : N.length = 1 ∨ N.length = 2 := by omega
    rcases h12 with h | h <;> simp [h]

theorem rstripTrim_alpha {T : List Char} (halpha : ∀ c ∈ T, isAlphaC c = true) :
    rstripTrim T = T := by
  unfold rstripTrim
  rw [dropWhile_eq_self_of _ _
    (fun c hc => alpha_not_trimset (halpha c (List.mem_reverse.mp hc))),
    List.reverse_reverse]

theorem extract_rev_canonical {T N : List Char}
    (hsp : ∀ c ∈ T ++ '_' :: ('R' :: 'e' :: 'v' :: N), isSpaceC c = false)
    (hNne : N ≠ []) (hN2 : N.length ≤ 2) (hNdig : allDigits N = true)
    (halpha : ∀ c ∈ T, isAlphaC c = true) (ns : List (List Char)) :
    extract_rev (T ++ '_' :: ('R' :: 'e' :: 'v' :: N)) ns
      = (T, 'R' :: 'e' :: 'v' :: N, ns) := by
  simp only [extract_rev]
  rw [rstripWS_id hsp, canonRev_canonical hNne hN2 hNdig]
  simp only []
  rw [rstripTrim_alpha halpha]

theorem hasDblU_flat : ∀ (l : List Char), (∀ c ∈ l, (c == '_') = false) →
    hasDblU l = false := by
  intro l
  induction l with
  | nil => intro _; rfl
  | cons a rest ih =>
    intro h
    cases rest with
    | nil => rfl
    | cons b rt =>
      show ((a == '_') && (b == '_') || hasDblU (b :: rt)) = false
      rw [h a (List.mem_cons_self _ _),
        ih (fun c hc => h c (List.mem_cons_of_mem _ hc))]
      rfl

theorem hasDblU_sep : ∀ (a : List Char) {b : List Char}, hasDblU b = false →
    (∀ x, b.head? = some x → (x == '_') = false) →
    (∀ c ∈ a, (c == '_') = false) → hasDblU (a ++ '_' :: b) = false := by
  intro a
  induction a with
  | nil =>
    intro b hb hbh _
    cases b with
    | nil => rfl
    | cons c bt =>
      show (('_' == '_') && (c == '_') || hasDblU (c :: bt)) = false
      rw [hb, hbh c rfl]
      decide
  | cons x a2 ih =>
    intro b hb hbh ha
    have hx : (x == '_') = false := ha x (List.mem_cons_self _ _)
    have ha2 : ∀ c ∈ a2, (c == '_') = false :=
      fun c hc => ha c (List.mem_cons_of_mem _ hc)
    have ih2 := ih hb hbh ha2
    cases a2 with
    | nil =>
      show ((x == '_') && ('_' == '_') || hasDblU ('_' :: b)) = false
      have ih3 : hasDblU ('_' :: b) = false := ih2
      rw [hx, ih3]
      rfl
    | cons y a3 =>
      show ((x == '_') && (y == '_') || hasDblU (y :: (a3 ++ '_' :: b))) = false
      have ih3 : hasDblU (y :: (a3 ++ '_' :: b)) = false := ih2
      rw [hx, ih3]
      rfl

theorem cuMain_id : ∀ (l : List Char), hasDblU l = false → cuMain l = l := by
  intro l
  induction l with
  | nil => intro _; rfl
  | cons a rest ih =>
    intro h
    rw [cuMain_cons]
    by_cases ha : a = '_'
    · rw [if_pos ha]
      cases rest with
      | nil => rfl
      | cons b rt =>
        by_cases hb : b = '_'
        · exfalso
          subst ha
          subst hb
          simp [hasDblU] at h
        · simp only []
          rw [if_neg hb]
          have h2 : hasDblU (b :: rt) = false := by
            have h3 : ((a == '_') && (b == '_') || hasDblU (b :: rt)) = false := h
            exact ((Bool.or_eq_false_iff).mp h3).2
          rw [ih h2]
    · rw [if_neg ha]
      cases rest with
      | nil => rfl
      | cons b rt =>
        have h2 : hasDblU (b :: rt) = false := by
          have h3 : ((a == '_') && (b == '_') || hasDblU (b :: rt)) = false := h
          exact ((Bool.or_eq_false_iff).mp h3).2
        rw [ih h2]

theorem countU_append (a b : List Char) : countU (a ++ b) = countU a + countU b := by
  simp [countU, List.filter_append]

theorem countU_zero : ∀ (l : List Char), (∀ c ∈ l, (c == '_') = false) →
    countU l = 0 := by
  intro l
  induction l with
  | nil => intro _; rfl
  | cons a rest ih =>
    intro h
    simp only [countU, List.filter_cons, h a (List.mem_cons_self _ _)]
    exact ih (fun c hc => h c (List.mem_cons_of_mem _ hc))

theorem countU_cons_u (l : List Char) : countU ('_' :: l) = countU l + 1 := by
  simp [countU, List.filter_cons]

theorem mem_takeWhile_mem {p : Char → Bool} : ∀ (l : List Char) {s : Char},
    s ∈ l.takeWhile p → s ∈ l := by
  intro l
  induction l with
  | nil => intro s hs; simp at hs
  | cons a t ih =>
    intro s hs
    rw [List.takeWhile_cons] at hs
    by_cases hp : p a = true
    · rw [if_pos hp] at hs
      rcases List.mem_cons.mp hs with rfl | hs2
      · exact List.mem_cons_self _ _
      · exact List.mem_cons_of_mem _ (ih hs2)
    · rw [if_neg hp] at hs
      simp at hs

theorem splitStemExt_canonical {stem e : List Char}
    (he : ∀ c ∈ e, (c == '.') = false) :
    splitStemExt (stem ++ '.' :: e) = (stem, '.' :: e) := by
  simp only [splitStemExt]
  have hcont : (stem ++ '.' :: e).contains '.' = true := by
    have hm : ('.' : Char) ∈ stem ++ '.' :: e := by simp
    exact List.elem_eq_true_of_mem hm
  rw [if_pos hcont]
  have hrev : (stem ++ '.' :: e).reverse = e.reverse ++ '.' :: stem.reverse := by simp
  rw [hrev]
  rw [takeWhile_append_cons _
    (fun c hc => by
      rw [bne_true_of_beq_false (he c (List.mem_reverse.mp hc))])
    (by decide)]
  have hdrop : (e.reverse ++ '.' :: stem.reverse).drop (e.reverse.length + 1)
      = stem.reverse := by
    have h1 : e.reverse ++ '.' :: stem.reverse = (e.reverse ++ ['.']) ++ stem.reverse := by
      simp
    have h2 : (e.reverse ++ ['.']).length = e.reverse.length + 1 := by simp
    rw [h1, ← h2, List.drop_left]
  rw [hdrop]
  simp

theorem spaceBeforeExt_nospace {l : List Char} (h : ∀ c ∈ l, isSpaceC c = false) :
    spaceBeforeExt l = false := by
  simp only [spaceBeforeExt]
  by_cases ha : l.reverse.takeWhile isAlnumC = []
  · rw [if_pos ha]
  · rw [if_neg ha]
    rcases hd : l.reverse.drop (l.reverse.takeWhile isAlnumC).length with _ | ⟨c, r2⟩
    · rfl
    · split
      · rename_i r3 heq
        injection heq with h1 h2
        subst h2
        cases hr2 : r2.takeWhile isSpaceC with
        | nil => simp [hr2]
        | cons s t =>
          exfalso
          have hs : isSpaceC s = true := by
            have hall := takeWhile_all isSpaceC r2
            rw [hr2] at hall
            exact (List.all_eq_true.mp hall) s (List.mem_cons_self _ _)
          have hmem : s ∈ l := by
            have hm1 : s ∈ r2.takeWhile isSpaceC := by
              rw [hr2]; exact List.mem_cons_self _ _
            have hm2 : s ∈ r2 := mem_takeWhile_mem r2 hm1
            have hm3 : s ∈ c :: r2 := List.mem_cons_of_mem _ hm2
            have hm4 : s ∈ l.reverse := List.drop_subset _ _ (hd ▸ hm3)
            exact List.mem_reverse.mp hm4
          rw [h s hmem] at hs
          exact absurd hs (by decide)
      · rfl

theorem tnd_eight {D : List Char} (h8 : D.length = 8) (hdig : allDigits D = true) :
    try_normalize_date D = (some D, none) := by
  have hsp : ∀ c ∈ D, isSpaceC c = false :=
    fun c hc => digit_not_space (allDigits_mem hdig hc)
  simp only [try_normalize_date]
  rw [pyStrip_eq_self hsp]
  rw [if_neg (by intro he; rw [he] at h8; simp at h8)]
  rw [if_pos (by simp [h8, hdig])]

theorem mem_of_head {l : List Char} {x : Char} (h : l.head? = some x) : x ∈ l := by
  cases l with
  | nil => simp at h
  | cons a t =>
    have hax : a = x := by simpa using h
    rw [← hax]
    exact List.mem_cons_self _ _

theorem finalizeF_canonical (P D T N e : List Char)
    (hP2 : upper2to4 P = true)
    (hD8 : D.length = 8) (hDdig : allDigits D = true)
    (hTne : T ≠ []) (hTalpha : ∀ c ∈ T, isAlphaC c = true)
    (hText : ∀ tok ∈ extAlts, endsWithL tok (T.map Char.toLower) = false)
    (hNne : N ≠ []) (hN2 : N.length ≤ 2) (hNdig : allDigits N = true)
    (hbud : P.length + D.length + T.length + N.length + 6 ≤ 64) :
    finalizeF P none D (T ++ '_' :: ('R' :: 'e' :: 'v' :: N)) none []
        ('.' :: e)
        ((P ++ '_' :: (D ++ '_' :: (T ++ '_' :: ('R' :: 'e' :: 'v' :: N)))) ++ '.' :: e)
      = (some ((P ++ '_' :: (D ++ '_' :: (T ++ '_' :: ('R' :: 'e' :: 'v' :: N)))) ++ '.' :: e),
         [], false) := by
  have hPall : ∀ c ∈ P, isUpperC c = true :=
    List.all_eq_true.mp ((Bool.and_eq_true _ _).mp hP2).2
  have hDne : D ≠ [] := by intro he0; rw [he0] at hD8; simp at hD8
  have hRu : ∀ c ∈ 'R' :: 'e' :: 'v' :: N, (c == '_') = false := by
    intro c hc
    simp only [List.mem_cons] at hc
    rcases hc with rfl | rfl | rfl | hc
    · decide
    · decide
    · decide
    · exact digit_ne_underscore (allDigits_mem hNdig hc)
  have hTRsp : ∀ c ∈ T ++ '_' :: ('R' :: 'e' :: 'v' :: N), isSpaceC c = false := by
    intro c hc
    simp only [List.mem_append, List.mem_cons] at hc
    rcases hc with hc | rfl | rfl | rfl | rfl | hc
    · exact alpha_not_space (hTalpha c hc)
    · decide
    · decide
    · decide
    · decide
    · exact digit_not_space (allDigits_mem hNdig hc)
  have hex : extract_rev (T ++ '_' :: ('R' :: 'e' :: 'v' :: N)) []
      = (T, 'R' :: 'e' :: 'v' :: N, []) :=
    extract_rev_canonical hTRsp hNne hN2 hNdig hTalpha []
  have hsan := sanitize_title_id hText hTalpha
  have henf : enforce_stem_limit P none D T ('R' :: 'e' :: 'v' :: N) [] = (T, []) := by
    simp only [enforce_stem_limit, optTruthy]
    rw [if_neg ?hgt]
    case hgt =>
      simp only [List.length_append, List.length_cons, List.length_nil, MAX_CHARS_TOTAL]
      omega
  have hdblu : hasDblU (P ++ '_' :: (D ++ '_' :: (T ++ '_' :: ('R' :: 'e' :: 'v' :: N))))
      = false := by
    have hrevflat : hasDblU ('R' :: 'e' :: 'v' :: N) = false := hasDblU_flat _ hRu
    have h1 : hasDblU (T ++ '_' :: ('R' :: 'e' :: 'v' :: N)) = false :=
      hasDblU_sep T hrevflat
        (fun x hx => by
          have : 'R' = x := by simpa using hx
          rw [← this]; decide)
        (fun c hc => beq_false_of_pred isAlphaC (hTalpha c hc) (by decide))
    have h2 : hasDblU (D ++ '_' :: (T ++ '_' :: ('R' :: 'e' :: 'v' :: N))) = false :=
      hasDblU_sep D h1
        (fun x hx => by
          rw [head_append_ne hTne] at hx
          exact beq_false_of_pred isAlphaC (hTalpha x (mem_of_head hx)) (by decide))
        (fun c hc => digit_ne_underscore (allDigits_mem hDdig hc))
    exact hasDblU_sep P h2
      (fun x hx => by
        rw [head_append_ne hDne] at hx
        exact digit_ne_underscore (allDigits_mem hDdig (mem_of_head hx)))
      (fun c hc => beq_false_of_pred isUpperC (hPall c hc) (by decide))
  obtain ⟨dN, hdN⟩ := exists_getLast hNne
  have hdig : isDigitC dN = true := allDigits_mem hNdig (mem_of_getLast hdN)
  have hSlast : (P ++ '_' :: (D ++ '_' :: (T ++ '_' :: ('R' :: 'e' :: 'v' :: N)))).getLast?
      = some dN := by
    have hre : P ++ '_' :: (D ++ '_' :: (T ++ '_' :: ('R' :: 'e' :: 'v' :: N)))
        = (P ++ '_' :: (D ++ '_' :: (T ++ ['_', 'R', 'e', 'v']))) ++ N := by
      simp
    rw [hre, List.getLast?_append_of_ne_nil _ hNne, hdN]
  have hcu : cuMain (P ++ '_' :: (D ++ '_' :: (T ++ '_' :: ('R' :: 'e' :: 'v' :: N))))
      = P ++ '_' :: (D ++ '_' :: (T ++ '_' :: ('R' :: 'e' :: 'v' :: N))) :=
    cuMain_id _ hdblu
  have hstem1 : join_tokens P none D T ('R' :: 'e' :: 'v' :: N)
      = P ++ '_' :: (D ++ '_' :: (T ++ '_' :: ('R' :: 'e' :: 'v' :: N))) := by
    simp only [join_tokens, optTruthy]
    have hw : joinWith '_' ([P] ++ ([] : List (List Char)) ++ [D, T, 'R' :: 'e' :: 'v' :: N])
        = P ++ '_' :: (D ++ '_' :: (T ++ '_' :: ('R' :: 'e' :: 'v' :: N))) := by
      simp [joinWith]
    rw [hw, hcu]
    exact rstrip_id hSlast (digit_ne_underscore hdig)
  have hcount : countU (P ++ '_' :: (D ++ '_' :: (T ++ '_' :: ('R' :: 'e' :: 'v' :: N))))
      = 3 := by
    have hP0 : countU P = 0 :=
      countU_zero P (fun c hc => beq_false_of_pred isUpperC (hPall c hc) (by decide))
    have hD0 : countU D = 0 :=
      countU_zero D (fun c hc => digit_ne_underscore (allDigits_mem hDdig hc))
    have hT0 : countU T = 0 :=
      countU_zero T (fun c hc => beq_false_of_pred isAlphaC (hTalpha c hc) (by decide))
    have hR0 : countU ('R' :: 'e' :: 'v' :: N) = 0 := countU_zero _ hRu
    rw [countU_append, countU_cons_u, countU_append, countU_cons_u, countU_append,
      countU_cons_u, hP0, hD0, hT0, hR0]
  have huok : underscores_ok
      (P ++ '_' :: (D ++ '_' :: (T ++ '_' :: ('R' :: 'e' :: 'v' :: N))))
      (optTruthy (none : Option (List Char))).isSome = true := by
    simp [underscores_ok, optTruthy, hcount]
  have hpost : postprocess_before_ext
      (P ++ '_' :: (D ++ '_' :: (T ++ '_' :: ('R' :: 'e' :: 'v' :: N)))) []
      = (P ++ '_' :: (D ++ '_' :: (T ++ '_' :: ('R' :: 'e' :: 'v' :: N))), []) :=
    postprocess_id
      (endsWith_single_of_last hSlast (beq_digit_false '_' (by decide) hdig))
      (endsWith_single_of_last hSlast (beq_digit_false '.' (by decide) hdig)) []
  simp only [finalizeF]
  simp only [hex]
  simp only [hsan]
  simp only [henf]
  simp only [hstem1]
  rw [if_pos huok]
  simp only [hpost]
  rw [decide_eq_false (fun hne =>
    hne (rfl : (P ++ '_' :: (D ++ '_' :: (T ++ '_' :: ('R' :: 'e' :: 'v' :: N)))) ++ '.' :: e
      = (P ++ '_' :: (D ++ '_' :: (T ++ '_' :: ('R' :: 'e' :: 'v' :: N)))) ++ '.' :: e))]

/-- C1 (amended): re-auditing is silent exactly on strict canonical form: for
every name `P_DATE_TITLE_RevN.EXT` built from a plain standard-family prefix
(2-4 uppercase, in the standard table, not one of the special-cased prefixes
and requiring neither identifier nor CSI), an 8-digit date, a nonempty
letters-only title not ending in a known extension token, 1-2 revision digits,
an alphanumeric extension, within the 64-character budget and not matching an
exemption prefix, the audit returns the name itself with empty notes and
`changed = false`. -/
theorem audit_canonical_fixed_point (P D T N e : List Char)
    (hP2 : upper2to4 P = true)
    (hPstd : memS P STANDARD_PREFIXES = true)
    (hPcor : P ≠ "COR".toList) (hPqa : P ≠ "QA".toList) (hPau : P ≠ "AU".toList)
    (hPfdm : P ≠ "FDM".toList) (hPtf : P ≠ "TF".toList)
    (hPpn : P ≠ "PN".toList) (hPsp : P ≠ "SP".toList) (hPwr : P ≠ "WR".toList)
    (hPre : P ≠ "RE".toList)
    (hPid : memS P REQUIRES_ID_ANY = false) (hPcsi : memS P REQUIRES_CSI = false)
    (hD8 : D.length = 8) (hDdig : allDigits D = true)
    (hTne : T ≠ []) (hTalpha : ∀ c ∈ T, isAlphaC c = true)
    (hText : ∀ tok ∈ extAlts, endsWithL tok (T.map Char.toLower) = false)
    (hNne : N ≠ []) (hN2 : N.length ≤ 2) (hNdig : allDigits N = true)
    (hene : e ≠ []) (healn : ∀ c ∈ e, isAlnumC c = true)
    (hbud : P.length + D.length + T.length + N.length + 6 ≤ 64)
    (hig : ignoreHit
      ((P ++ '_' :: (D ++ '_' :: (T ++ '_' :: ('R' :: 'e' :: 'v' :: N)))) ++ '.' :: e)
      = false) :
    auditL ((P ++ '_' :: (D ++ '_' :: (T ++ '_' :: ('R' :: 'e' :: 'v' :: N)))) ++ '.' :: e)
      = Except.ok
          (some ((P ++ '_' :: (D ++ '_' :: (T ++ '_' :: ('R' :: 'e' :: 'v' :: N))))
            ++ '.' :: e), [], false) := by
  obtain ⟨p0, pt, hPsh, hp0u⟩ := upper_head hP2
  have hPne : P ≠ [] := by rw [hPsh]; simp
  have hPall : ∀ c ∈ P, isUpperC c = true :=
    List.all_eq_true.mp ((Bool.and_eq_true _ _).mp hP2).2
  have hDne : D ≠ [] := by intro he0; rw [he0] at hD8; simp at hD8
  have hmem : ∀ {c : Char},
      c ∈ (P ++ '_' :: (D ++ '_' :: (T ++ '_' :: ('R' :: 'e' :: 'v' :: N)))) ++ '.' :: e →
      c ∈ P ∨ c ∈ D ∨ c ∈ T ∨ c ∈ N ∨ c ∈ e
        ∨ c = '_' ∨ c = 'R' ∨ c = 'e' ∨ c = 'v' ∨ c = '.' := by
    intro c hc
    simp only [List.mem_append, List.mem_cons] at hc
    tauto
  have hspname : ∀ c ∈
      (P ++ '_' :: (D ++ '_' :: (T ++ '_' :: ('R' :: 'e' :: 'v' :: N)))) ++ '.' :: e,
      isSpaceC c = false := by
    intro c hc
    rcases hmem hc with h | h | h | h | h | rfl | rfl | rfl | rfl | rfl
    · exact alpha_not_space (upper_alpha (hPall c h))
    · exact digit_not_space (allDigits_mem hDdig h)
    · exact alpha_not_space (hTalpha c h)
    · exact digit_not_space (allDigits_mem hNdig h)
    · exact alnum_not_space (healn c h)
    · decide
    · decide
    · decide
    · decide
    · decide
  have hpy : pyStrip
      ((P ++ '_' :: (D ++ '_' :: (T ++ '_' :: ('R' :: 'e' :: 'v' :: N)))) ++ '.' :: e)
      = (P ++ '_' :: (D ++ '_' :: (T ++ '_' :: ('R' :: 'e' :: 'v' :: N)))) ++ '.' :: e :=
    pyStrip_eq_self hspname
  have hNAMEne :
      (P ++ '_' :: (D ++ '_' :: (T ++ '_' :: ('R' :: 'e' :: 'v' :: N)))) ++ '.' :: e
      ≠ [] := by
    rw [hPsh]; simp
  have hRu : ∀ c ∈ 'R' :: 'e' :: 'v' :: N, (c == '_') = false := by
    intro c hc
    simp only [List.mem_cons] at hc
    rcases hc with rfl | rfl | rfl | hc
    · decide
    · decide
    · decide
    · exact digit_ne_underscore (allDigits_mem hNdig hc)
  have hdblu : hasDblU (P ++ '_' :: (D ++ '_' :: (T ++ '_' :: ('R' :: 'e' :: 'v' :: N))))
      = false := by
    have hrevflat : hasDblU ('R' :: 'e' :: 'v' :: N) = false := hasDblU_flat _ hRu
    have h1 : hasDblU (T ++ '_' :: ('R' :: 'e' :: 'v' :: N)) = false :=
      hasDblU_sep T hrevflat
        (fun x hx => by
          have hxr : 'R' = x := by simpa using hx
          rw [← hxr]; decide)
        (fun c hc => beq_false_of_pred isAlphaC (hTalpha c hc) (by decide))
    have h2 : hasDblU (D ++ '_' :: (T ++ '_' :: ('R' :: 'e' :: 'v' :: N))) = false :=
      hasDblU_sep D h1
        (fun x hx => by
          rw [head_append_ne hTne] at hx
          exact beq_false_of_pred isAlphaC (hTalpha x (mem_of_head hx)) (by decide))
        (fun c hc => digit_ne_underscore (allDigits_mem hDdig hc))
    exact hasDblU_sep P h2
      (fun x hx => by
        rw [head_append_ne hDne] at hx
        exact digit_ne_underscore (allDigits_mem hDdig (mem_of_head hx)))
      (fun c hc => beq_false_of_pred isUpperC (hPall c hc) (by decide))
  have hsplit : splitStemExt
      ((P ++ '_' :: (D ++ '_' :: (T ++ '_' :: ('R' :: 'e' :: 'v' :: N)))) ++ '.' :: e)
      = (P ++ '_' :: (D ++ '_' :: (T ++ '_' :: ('R' :: 'e' :: 'v' :: N))), '.' :: e) :=
    splitStemExt_canonical
      (fun c hc => beq_false_of_pred isAlnumC (healn c hc) (by decide))
  have hUP : '_' ∉ P := fun hm => absurd (hPall '_' hm) (by decide)
  have hUD : '_' ∉ D := fun hm => absurd (allDigits_mem hDdig hm) (by decide)
  have hUT : '_' ∉ T := fun hm => absurd (hTalpha '_' hm) (by decide)
  have hUR : '_' ∉ 'R' :: 'e' :: 'v' :: N := by
    intro hm
    simp only [List.mem_cons] at hm
    rcases hm with h | h | h | h
    · exact absurd h (by decide)
    · exact absurd h (by decide)
    · exact absurd h (by decide)
    · exact absurd (allDigits_mem hNdig h) (by decide)
  have htok : (splitOnChar '_'
      (P ++ '_' :: (D ++ '_' :: (T ++ '_' :: ('R' :: 'e' :: 'v' :: N))))).filter
      (fun t => !t.isEmpty) = [P, D, T, 'R' :: 'e' :: 'v' :: N] := by
    rw [splitOnChar_append hUP, splitOnChar_append hUD, splitOnChar_append hUT,
      splitOnChar_of_not_mem hUR]
    simp [List.filter_cons, isEmpty_false_of_ne hPne, isEmpty_false_of_ne hDne,
      isEmpty_false_of_ne hTne]
  have hnd : needDate D ([] : List (List Char)) = (some D, []) := by
    unfold needDate
    rw [if_neg hDne, tnd_eight hD8 hDdig]
  have hdisp : dispatch P [D, T, 'R' :: 'e' :: 'v' :: N] []
      = Except.ok (Outcome2.fin P none D (joinU [T, 'R' :: 'e' :: 'v' :: N]) none []) := by
    unfold dispatch
    rw [if_neg hPcor, if_neg hPqa, if_neg hPau, if_neg hPfdm, if_neg hPtf]
    rw [if_neg (by rw [hPid]; exact Bool.false_ne_true),
      if_neg (by rw [hPcsi]; exact Bool.false_ne_true)]
    rw [if_neg hPpn, if_neg hPsp, if_neg hPwr, if_neg hPre, if_pos hPstd]
    unfold stdBranch
    have hget : ([D, T, 'R' :: 'e' :: 'v' :: N] : List (List Char)).get? 0 = some D := rfl
    rw [hget]
    have hndo : needDateOpt (some D) ([] : List (List Char)) = (some D, []) := by
      simp only [needDateOpt]
      exact hnd
    rw [hndo]
    rfl
  have hnig : ¬ ignoreHit
      ((P ++ '_' :: (D ++ '_' :: (T ++ '_' :: ('R' :: 'e' :: 'v' :: N)))) ++ '.' :: e)
      = true := by
    rw [hig]; exact Bool.false_ne_true
  have hnsp : ¬ spaceBeforeExt
      ((P ++ '_' :: (D ++ '_' :: (T ++ '_' :: ('R' :: 'e' :: 'v' :: N)))) ++ '.' :: e)
      = true := by
    rw [spaceBeforeExt_nospace hspname]; exact Bool.false_ne_true
  have hndbl : ¬ hasDblU (P ++ '_' :: (D ++ '_' :: (T ++ '_' :: ('R' :: 'e' :: 'v' :: N))))
      = true := by
    rw [hdblu]; exact Bool.false_ne_true
  simp only [auditL]
  rw [hpy, if_neg hNAMEne]
  rw [if_neg hnig]
  rw [if_neg hnsp]
  rw [hsplit]
  simp only []
  rw [if_neg hndbl]
  simp only []
  rw [htok]
  simp only []
  rw [if_pos hP2, hdisp, except_bind_ok]
  simp only []
  have hj : joinU [T, 'R' :: 'e' :: 'v' :: N] = T ++ '_' :: ('R' :: 'e' :: 'v' :: N) := rfl
  rw [hj]
  rw [finalizeF_canonical P D T N e hP2 hD8 hDdig hTne hTalpha hText hNne hN2 hNdig hbud]
  rfl

/-- Witness for C1's amended theorem at the canonical name
`LG_20240101_Title_Rev1.pdf`. -/
theorem audit_canonical_fixed_point_witness :
    auditL (("LG".toList ++ '_' :: ("20240101".toList ++ '_' ::
        ("Title".toList ++ '_' :: ('R' :: 'e' :: 'v' :: "1".toList)))) ++ '.' :: "pdf".toList)
      = Except.ok
          (some (("LG".toList ++ '_' :: ("20240101".toList ++ '_' ::
            ("Title".toList ++ '_' :: ('R' :: 'e' :: 'v' :: "1".toList)))) ++ '.' :: "pdf".toList),
           [], false) :=
  audit_canonical_fixed_point "LG".toList "20240101".toList "Title".toList
    "1".toList "pdf".toList
    (by decide) (by decide) (by decide) (by decide) (by decide) (by decide) (by decide)
    (by decide) (by decide) (by decide) (by decide) (by decide) (by decide) (by decide)
    (by decide) (by decide) (by decide) (by decide) (by decide) (by decide) (by decide)
    (by decide) (by decide) (by decide) (by decide)

/-- C9: `audit_filename` is total: for every input string, including ones with
no extension, no underscores, or unusual token counts, it returns a decision
without any out-of-range token access. -/
theorem audit_total (s : String) : ∃ v, audit_filename s = Except.ok v := by
  obtain ⟨v, hv, -, -⟩ := auditL_spec s.toList
  exact ⟨v, hv⟩

end CTA
